import Mathlib

/-!
# A verification development for the `todo_rust` terminal task tracker

This file gives a shallow embedding, in Lean 4, of the core state machine of
the task-tracker application (`src/app.rs`, `src/app/task.rs`, `src/main.rs`),
and proves or refutes the specified properties about it.

Modelling conventions:
* Rust `String` values are modelled as `List Char`: every string operation the
  program performs (`chars().count()`, `chars().nth(i)`, `push`, `pop`,
  `remove(0)`, `insert(0, c)`, `retain`, `drain(..n)`) is by character
  (code point), which is exactly `List Char`.
* `u16`/`usize` arithmetic is modelled on `Nat`; where wrapping (release-mode)
  or panicking (debug-mode) two's-complement behaviour matters it is made
  explicit with `% 65536` and with `Option`-valued checked operations.
* Time-valued fields (`Instant`, blink timestamps) and purely visual fields
  (`disp_string`, `cursor_shown`, `show_popup`, `popup_type`, `edit_setting`)
  drive no behaviour that the verified properties mention and are omitted from
  the state; `elapsed_time` and `created_on` are carried as opaque numbers.
* File I/O in `App::new` is modelled over an abstract view of the storage
  folder (`FileSys`): each of the three files is either absent (`none`) or
  present with already-parsed content (`some v`).  Parse failures abort the
  program and are out of scope.
-/

namespace Todo

/-- `task.rs`: the persisted task record (`Task` itself is taken by Lean's
core concurrency type, hence the `Todo` namespace). -/
structure Task where
  title : List Char
  description : List Char
  is_done : Bool
  is_active : Bool
  is_selected : Bool
  elapsed_time : Nat
  created_on : Nat
deriving DecidableEq

/-- Default task value used only as an out-of-range placeholder for `getD`;
all modelled accesses are in range. -/
def defTask : Task :=
  { title := [], description := [], is_done := false, is_active := false
    is_selected := false, elapsed_time := 0, created_on := 0 }

/-- Flip helper: `task.is_selected = b`. -/
def Task.setSel (t : Task) (b : Bool) : Task :=
  { t with is_selected := b }

/-- `task.rs` `Task::toggle_active`. -/
def Task.toggle_active (t : Task) : Task :=
  if t.is_active then { t with is_active := false } else { t with is_active := true }

/-- `app.rs`: an archive batch (`ArchiveItem`), a capture date plus tasks. -/
structure ArchiveItem where
  date : Nat
  tasks : List Task
deriving DecidableEq

/-- Default archive item placeholder for `getD`. -/
def defArchiveItem : ArchiveItem := { date := 0, tasks := [] }

/-- `app.rs` `AppState`. -/
inductive AppState where
  | Display
  | EditTask
  | Archived
  | Settings
deriving DecidableEq

/-- `app.rs` `EditField`. -/
inductive EditField where
  | Title
  | Description
deriving DecidableEq

/-- `tui::style::Color`, restricted to the palette the program uses. -/
inductive Color where
  | White
  | Cyan
  | Red
  | Green
  | Blue
  | Yellow
  | Gray
  | DarkGray
  | Black
  | Reset
  | NoColor
deriving DecidableEq

/-- `tui::style::Style`, restricted to the fields the program sets:
`Style::default()` has both colours unset, `.fg`/`.bg` set them. -/
structure Style where
  fg : Option Color
  bg : Option Color
deriving DecidableEq

def Style.default : Style := { fg := none, bg := none }

def Style.setFg (s : Style) (c : Color) : Style := { s with fg := some c }

def Style.setBg (s : Style) (c : Color) : Style := { s with bg := some c }

/-- `app.rs` `Settings`. -/
structure Settings where
  is_horizontal : Bool
  default : Style
  highlight : Style
  active_normal : Style
  active_highlight : Style
  title : Style
  border : Style
  normal_fg_colour : Color
  normal_bg_colour : Color
  select_fg_colour : Color
  select_bg_colour : Color
  active_fg_colour : Color
  title_fg_colour : Color
  border_colour : Color
deriving DecidableEq

/-- `app.rs` `Settings::set_colours`: recompute the six derived styles. -/
def Settings.set_colours (s : Settings) : Settings :=
  { s with
    default := (Style.default.setFg s.normal_fg_colour).setBg s.normal_bg_colour
    highlight := (Style.default.setFg s.select_fg_colour).setBg s.select_bg_colour
    active_normal := (Style.default.setFg s.active_fg_colour).setBg s.normal_bg_colour
    active_highlight := (Style.default.setFg s.active_fg_colour).setBg s.select_bg_colour
    title := (Style.default.setFg s.title_fg_colour).setBg s.normal_bg_colour
    border := (Style.default.setFg s.border_colour).setBg s.normal_bg_colour }

/-- `app.rs` `Settings::default_settings`. -/
def Settings.default_settings : Settings :=
  Settings.set_colours
    { is_horizontal := true
      default := Style.default, highlight := Style.default
      active_normal := Style.default, active_highlight := Style.default
      title := Style.default, border := Style.default
      normal_fg_colour := Color.White, normal_bg_colour := Color.Black
      select_fg_colour := Color.Black, select_bg_colour := Color.White
      active_fg_colour := Color.Green, title_fg_colour := Color.Green
      border_colour := Color.Green }

/-- The modelled `App` state (`app.rs` `struct App`), restricted to the fields
that drive the verified behaviour (see the module comment for what is omitted
and why). -/
structure App where
  tasks : List Task
  archive : List ArchiveItem
  curr_archive : Nat
  state : AppState
  edit_field : EditField
  desc_width_char : Nat
  task_block_height : Nat
  first_task : Nat
  first_string : List Char
  blink_char : Char
  second_string : List Char
  cursor_pos : Nat
  settings : Settings
deriving DecidableEq

/-- `u16` modulus. -/
def U16 : Nat := 65536

/-- Release-mode wrapping `u16` subtraction `a - b` (both already `< 65536`). -/
def wsub16 (a b : Nat) : Nat := (a + U16 - b % U16) % U16

/-- The reconstructed buffer used throughout `app.rs` when the edit strings
are written back or rescanned: `first_string`, then — only when
`second_string` is non-empty — `blink_char` followed by `second_string`
(e.g. `enter_display`, `change_field`, `set_cursor_pos`). -/
def recon (f : List Char) (b : Char) (s : List Char) : List Char :=
  f ++ if s.isEmpty then [] else b :: s

/-- One character of the soft-wrap walk in `App::get_cursor_pos`
(`app.rs:687`): a line break resets the column and advances the row; when the
column has reached the wrap width the walk wraps (consuming the character
without advancing the column); otherwise the column advances. -/
def wrapStep (w : Nat) (p : Nat × Nat) (c : Char) : Nat × Nat :=
  if c = '\n' then (0, p.2 + 1)
  else if w ≤ p.1 then (p.1 - w, p.2 + 1)
  else (p.1 + 1, p.2)

/-- `App::get_cursor_pos` (`app.rs:687`): project `first_string` to wrapped
screen coordinates `(x, y)` under wrap width `w` (`desc_width_char`). -/
def get_cursor_pos (w : Nat) (f : List Char) : Nat × Nat :=
  f.foldl (wrapStep w) (0, 0)

/-- The scan loop of `App::set_cursor_pos` (`app.rs:708`): starting at screen
position `p`, find the offset of the first character position whose screen
position `(cx, cy)` satisfies `cx ≥ desX ∧ cy = desY`, or of a line break
lying exactly on row `desY`; `none` when the scan runs off the end. -/
def findSplit (w desX desY : Nat) : Nat × Nat → List Char → Option Nat
  | _, [] => none
  | p, c :: rest =>
    if desX ≤ p.1 ∧ p.2 = desY then some 0
    else if c = '\n' then
      if p.2 = desY then some 0
      else (findSplit w desX desY (0, p.2 + 1) rest).map Nat.succ
    else if w ≤ p.1 then (findSplit w desX desY (p.1 - w, p.2 + 1) rest).map Nat.succ
    else (findSplit w desX desY (p.1 + 1, p.2) rest).map Nat.succ

/-- `App::set_cursor_pos` (`app.rs:708`) on the edit buffer alone: rebuild the
full buffer, scan it for the target position, and split there; if no position
matches, the caret moves to end-of-buffer with a blank sentinel. Returns
`(first_string, blink_char, second_string, cursor_pos)`. -/
def set_cursor_pos (w desX desY : Nat) (f : List Char) (b : Char) (s : List Char) :
    List Char × Char × List Char × Nat :=
  let ns := recon f b s
  match findSplit w desX desY (0, 0) ns with
  | some i => (ns.take i, ns.getD i ' ', ns.drop (i + 1), i)
  | none => (ns, ' ', [], ns.length)

/-- `App::enter_edit` (`app.rs:555`): load the selected task's field into the
edit buffer, caret at the end marked by the `'\t'` sentinel. -/
def App.enter_edit (a : App) (edit : EditField) : App :=
  match a.tasks.find? (fun t => t.is_selected) with
  | none => a
  | some t =>
    let f := match edit with
      | EditField.Title => t.title
      | EditField.Description => t.description
    { a with
      first_string := f, blink_char := '\t', second_string := []
      cursor_pos := f.length, state := AppState.EditTask, edit_field := edit }

/-- The field commit performed by `App::enter_display` (`app.rs:575`) on one
selected task: write `first_string` (++ `blink_char` ++ `second_string` when
`second_string` is non-empty) into the field being edited; the title — and
only the title — then drops every `'\t'`. -/
def commitField (a : App) (t : Task) : Task :=
  match a.edit_field with
  | EditField.Title =>
    { t with title :=
        (recon a.first_string a.blink_char a.second_string).filter (fun c => c ≠ '\t') }
  | EditField.Description =>
    { t with description := recon a.first_string a.blink_char a.second_string }

/-- Select the head of a task list (used by several operations). -/
def selFirst : List Task → List Task
  | [] => []
  | t :: rest => t.setSel true :: rest

/-- `App::enter_display` (`app.rs:575`): when leaving `EditTask`, commit the
edited field into every selected task; switch to `Display`; if no task is
selected but some exist, select the first. -/
def App.enter_display (a : App) : App :=
  let any_selected := a.tasks.any (fun t => t.is_selected)
  let ts := if a.state = AppState.EditTask then
      a.tasks.map (fun t => if t.is_selected then commitField a t else t)
    else a.tasks
  let ts2 := if !any_selected ∧ ts ≠ [] then selFirst ts else ts
  { a with tasks := ts2, state := AppState.Display }

/-- One selected task's turn inside the `App::change_field` loop
(`app.rs:614`): commit the current field (verbatim, no stripping), reload the
buffer from the task's other field, and swap `edit_field`.  The edit state is
threaded as `(first_string, blink_char, second_string, cursor_pos,
edit_field)`. -/
def changeFieldStep (es : List Char × Char × List Char × Nat × EditField) (t : Task) :
    Task × (List Char × Char × List Char × Nat × EditField) :=
  match es with
  | (f, b, s, _, EditField.Title) =>
    ({ t with title := recon f b s },
     (t.description, '\t', [], t.description.length, EditField.Description))
  | (f, b, s, _, EditField.Description) =>
    ({ t with description := recon f b s },
     (t.title, '\t', [], t.title.length, EditField.Title))

/-- The `for` loop of `App::change_field`: every selected task is processed in
order, threading the edit state (an unselected task is untouched). -/
def changeFieldGo (es : List Char × Char × List Char × Nat × EditField) :
    List Task → List Task × (List Char × Char × List Char × Nat × EditField)
  | [] => ([], es)
  | t :: rest =>
    if t.is_selected then
      let p := changeFieldStep es t
      let q := changeFieldGo p.2 rest
      (p.1 :: q.1, q.2)
    else
      let q := changeFieldGo es rest
      (t :: q.1, q.2)

/-- `App::change_field` (`app.rs:614`). -/
def App.change_field (a : App) : App :=
  let r := changeFieldGo
    (a.first_string, a.blink_char, a.second_string, a.cursor_pos, a.edit_field) a.tasks
  { a with
    tasks := r.1, first_string := r.2.1, blink_char := r.2.2.1
    second_string := r.2.2.2.1, cursor_pos := r.2.2.2.2.1, edit_field := r.2.2.2.2.2 }

/-- `App::dec_cursor` (`app.rs:764`): move the caret one character left; the
character previously under the caret — sentinel or not — is pushed onto the
front of `second_string`. -/
def App.dec_cursor (a : App) : App :=
  if a.first_string.length > 0 then
    { a with
      second_string := a.blink_char :: a.second_string
      blink_char := a.first_string.getLastD ' '
      first_string := a.first_string.dropLast
      cursor_pos := a.cursor_pos - 1 }
  else a

/-- `App::inc_cursor` (`app.rs:774`): move the caret one character right. -/
def App.inc_cursor (a : App) : App :=
  match a.second_string with
  | [] => a
  | c :: rest =>
    { a with
      first_string := a.first_string ++ [a.blink_char]
      blink_char := c
      second_string := rest
      cursor_pos := a.cursor_pos + 1 }

/-- Apply a `set_cursor_pos` result to the app state. -/
def App.applyCursor (a : App) (r : List Char × Char × List Char × Nat) : App :=
  { a with first_string := r.1, blink_char := r.2.1
           second_string := r.2.2.1, cursor_pos := r.2.2.2 }

/-- `App::dec_line` (`app.rs:784`): move the caret one visual row up, holding
the screen column; at row 0 it snaps to the buffer start. -/
def App.dec_line (a : App) : App :=
  if a.cursor_pos > 0 then
    if (get_cursor_pos a.desc_width_char a.first_string).2 > 0 then
      a.applyCursor (set_cursor_pos a.desc_width_char
        (get_cursor_pos a.desc_width_char a.first_string).1
        ((get_cursor_pos a.desc_width_char a.first_string).2 - 1)
        a.first_string a.blink_char a.second_string)
    else
      a.applyCursor (set_cursor_pos a.desc_width_char 0 0
        a.first_string a.blink_char a.second_string)
  else a

/-- `App::inc_line` (`app.rs:796`): move the caret one visual row down. -/
def App.inc_line (a : App) : App :=
  a.applyCursor (set_cursor_pos a.desc_width_char
    (get_cursor_pos a.desc_width_char a.first_string).1
    ((get_cursor_pos a.desc_width_char a.first_string).2 + 1)
    a.first_string a.blink_char a.second_string)

/-- `App::delete_in_field` (`app.rs:1075`): backspace — drop the last
character of `first_string`. -/
def App.delete_in_field (a : App) : App :=
  if a.first_string.length > 0 then
    { a with first_string := a.first_string.dropLast, cursor_pos := a.cursor_pos - 1 }
  else a

/-- `App::type_in_field` (`app.rs:1082`): append a character to
`first_string`. -/
def App.type_in_field (a : App) (c : Char) : App :=
  { a with first_string := a.first_string ++ [c], cursor_pos := a.cursor_pos + 1 }

/-- The scan loop shared by both branches of `App::inc_sel_task`
(`app.rs:473`): find the first selected task among indices `< len - 1`, move
the flag one position down the list, and stop; returns the updated list and
the index at which the flag was found (`none` when the loop ran out, in which
case the list is returned unchanged). -/
def incSelGo : List Task → List Task × Option Nat
  | [] => ([], none)
  | [t] => ([t], none)
  | a :: b :: rest =>
    if a.is_selected then
      (a.setSel false :: b.setSel true :: rest, some 0)
    else
      let r := incSelGo (b :: rest)
      (a :: r.1, r.2.map Nat.succ)

/-- The scroll-window adjustment inside `App::inc_sel_task`, in release-mode
(wrapping) `u16` semantics:
`if (index+1) as u16 >= first_task + task_block_height
   { first_task = (index+1) as u16 - (task_block_height - 1) }`.
The debug-mode (panicking) semantics of the same expression is modelled by
`inc_sel_window_dbg` below. -/
def incWindow (ft tbh i : Nat) : Nat :=
  if (ft + tbh) % U16 ≤ (i + 1) % U16 then wsub16 ((i + 1) % U16) (wsub16 tbh 1) else ft

/-- The current archive batch (`self.archive[self.curr_archive]`). -/
def App.currBatch (a : App) : ArchiveItem :=
  a.archive.getD a.curr_archive defArchiveItem

/-- `App::inc_sel_task` (`app.rs:473`). -/
def App.inc_sel_task (a : App) : App :=
  match a.state with
  | AppState.Display =>
    if a.tasks.length > 0 then
      match (incSelGo a.tasks).2 with
      | some i =>
        { a with tasks := (incSelGo a.tasks).1
                 first_task := incWindow a.first_task a.task_block_height i }
      | none => { a with tasks := (incSelGo a.tasks).1 }
    else a
  | AppState.Archived =>
    if a.archive.length > 0 then
      if a.currBatch.tasks.length > 0 then
        match (incSelGo a.currBatch.tasks).2 with
        | some i =>
          { a with
            archive := a.archive.set a.curr_archive
              { a.currBatch with tasks := (incSelGo a.currBatch.tasks).1 }
            first_task := incWindow a.first_task a.task_block_height i }
        | none =>
          { a with
            archive := a.archive.set a.curr_archive
              { a.currBatch with tasks := (incSelGo a.currBatch.tasks).1 } }
      else a
    else a
  | _ => a

/-- The scan loop of `App::dec_sel_task` (`app.rs:517`).  The loop has no
`break`: every index `i ≥ 1` holding a selected task moves its flag to `i-1`
(and, since the flag lands behind the scan, a moved flag is not reprocessed).
The running `first_task` window offset is threaded through: at loop index
`index` (here the position of `b`), `if ((index-1) as u16) < first_task
{ first_task = (index-1) as u16 }`.  `i` is the absolute position of `a`. -/
def decSelGo : List Task → Nat → Nat → List Task × Nat
  | a :: b :: rest, i, ft =>
    if b.is_selected then
      let ft2 := if i % U16 < ft then i % U16 else ft
      let r := decSelGo (b.setSel false :: rest) (i + 1) ft2
      (a.setSel true :: r.1, r.2)
    else
      let r := decSelGo (b :: rest) (i + 1) ft
      (a :: r.1, r.2)
  | l, _, ft => (l, ft)
termination_by l _ _ => l.length

/-- `App::dec_sel_task` (`app.rs:517`). -/
def App.dec_sel_task (a : App) : App :=
  match a.state with
  | AppState.Display =>
    { a with tasks := (decSelGo a.tasks 0 a.first_task).1
             first_task := (decSelGo a.tasks 0 a.first_task).2 }
  | AppState.Archived =>
    if a.archive.length > 0 then
      { a with
        archive := a.archive.set a.curr_archive
          { a.currBatch with tasks := (decSelGo a.currBatch.tasks 0 a.first_task).1 }
        first_task := (decSelGo a.currBatch.tasks 0 a.first_task).2 }
    else a
  | _ => a

/-- The downward scan of `App::move_task_up` (`app.rs:441`): starting at the
last index and stopping at index 1, swap the first selected task found with
its predecessor. -/
def muGo (l : List Task) : Nat → List Task
  | 0 => l
  | i + 1 =>
    if (l.getD (i + 1) defTask).is_selected then
      (l.set (i + 1) (l.getD i defTask)).set i (l.getD (i + 1) defTask)
    else muGo l i

/-- `App::move_task_up` (`app.rs:441`). -/
def App.move_task_up (a : App) : App :=
  if a.tasks.length > 1 then { a with tasks := muGo a.tasks (a.tasks.length - 1) } else a

/-- The upward scan of `App::move_task_down` (`app.rs:457`): swap the first
selected task among indices `< len - 1` with its successor. -/
def mdGo : List Task → List Task
  | a :: b :: rest => if a.is_selected then b :: a :: rest else a :: mdGo (b :: rest)
  | l => l

/-- `App::move_task_down` (`app.rs:457`). -/
def App.move_task_down (a : App) : App :=
  if a.tasks.length > 1 then { a with tasks := mdGo a.tasks } else a

/-- One task's turn in `App::do_undo_task` (`app.rs:675`): a selected task's
`is_done` flips; a task that thereby becomes done while active is
deactivated. -/
def doUndoOne (t : Task) : Task :=
  if t.is_selected then
    let t2 := { t with is_done := !t.is_done }
    if t2.is_done ∧ t2.is_active then t2.toggle_active else t2
  else t

/-- `App::do_undo_task` (`app.rs:675`). -/
def App.do_undo_task (a : App) : App :=
  { a with tasks := a.tasks.map doUndoOne }

/-- One task's turn in `App::activate_task` (`app.rs:664`): the currently
active task is deactivated; otherwise a selected, not-done task is
activated. -/
def activateOne (t : Task) : Task :=
  if t.is_active then t.toggle_active
  else if t.is_selected ∧ !t.is_done then t.toggle_active
  else t

/-- `App::activate_task` (`app.rs:664`). -/
def App.activate_task (a : App) : App :=
  { a with tasks := a.tasks.map activateOne }

/-- `App::update_times` (`app.rs:655`): the elapsed wall-clock span `dt`
since the last event accrues to the active task. -/
def App.update_times (a : App) (dt : Nat) : App :=
  let tick := fun (t : Task) =>
    if t.is_active then { t with elapsed_time := t.elapsed_time + dt } else t
  { a with tasks := a.tasks.map tick }

/-- `App::add_task` (`app.rs:1087`): clear every selection flag, append a
blank selected task stamped `now`, and enter edit mode on its title. -/
def App.add_task (a : App) (now : Nat) : App :=
  let cleared := a.tasks.map (fun t => t.setSel false)
  let newTask : Task :=
    { title := [], description := [], is_done := false, is_active := false
      is_selected := true, elapsed_time := 0, created_on := now }
  App.enter_edit { a with tasks := cleared ++ [newTask] } EditField.Title

/-- The re-selection step shared by `App::del_task` and
`App::dearchive_task`: after the task at index `i` was removed from `l`, the
task now at `i` — or at `i - 1` when the removed task was last — becomes
selected (nothing happens on an empty list). -/
def reselectAt (l : List Task) (i : Nat) : List Task :=
  if l.length > 0 then
    if i < l.length then l.set i ((l.getD i defTask).setSel true)
    else l.set (i - 1) ((l.getD (i - 1) defTask).setSel true)
  else l

/-- `App::del_task` (`app.rs:1108`): the while/break loop removes the first
selected task (index `findIdx`) and re-selects a neighbour. -/
def App.del_task (a : App) : App :=
  if a.tasks.findIdx (fun t => t.is_selected) < a.tasks.length then
    { a with tasks := reselectAt (a.tasks.eraseIdx (a.tasks.findIdx (fun t => t.is_selected))) (a.tasks.findIdx (fun t => t.is_selected)) }
  else a

/-- The partition loop of `App::archive_done_tasks` (`app.rs:816`): returns
`(remaining tasks, archived tasks in order, reset_selection)`.  A done task
is moved out (its selection flag cleared first if set); `reset_selection`
records whether a selected task was moved out. -/
def archGo : List Task → List Task × List Task × Bool
  | [] => ([], [], false)
  | t :: rest =>
    let r := archGo rest
    if t.is_done then
      let t2 := if t.is_selected then t.setSel false else t
      (r.1, t2 :: r.2.1, t.is_selected || r.2.2)
    else
      (t :: r.1, r.2.1, r.2.2)

/-- The active list left behind by `archive_done_tasks`: when a selected task
was archived away and tasks remain, the head is re-selected. -/
def archRem (l : List Task) : List Task :=
  if (archGo l).2.2 ∧ 0 < (archGo l).1.length then selFirst (archGo l).1
  else (archGo l).1

/-- `App::archive_done_tasks` (`app.rs:816`): move every done task into a new
batch dated `now`; re-select the head of the active list if it lost its
selected task; if the batch is non-empty, select its head, append it, and
make it current. -/
def App.archive_done_tasks (a : App) (now : Nat) : App :=
  if 0 < (archGo a.tasks).2.1.length then
    { a with tasks := archRem a.tasks
             archive := a.archive ++ [{ date := now, tasks := selFirst (archGo a.tasks).2.1 }]
             curr_archive := a.archive.length }
  else { a with tasks := archRem a.tasks }

/-- The scan loop of `App::dearchive_task` (`app.rs:850`), acting on the
current batch (`batch`) and accumulating the tasks pushed onto the active
list (`pushed`).  At a selected index `i`: the task is pushed (done and
selection flags cleared), removed from the batch, and the batch task now at
`i` — or at `i - 1` when it was last — becomes selected; the loop then
continues at `i + 1` (it has no `break`). -/
def deGo (batch : List Task) (pushed : List Task) (i : Nat) : List Task × List Task :=
  if h : i < batch.length then
    let t := batch.getD i defTask
    if t.is_selected then
      let t2 := { t with is_done := false, is_selected := false }
      deGo (reselectAt (batch.eraseIdx i) i) (pushed ++ [t2]) (i + 1)
    else deGo batch pushed (i + 1)
  else (batch, pushed)
termination_by batch.length - i
decreasing_by
  · have hlen : (batch.eraseIdx i).length = batch.length - 1 :=
      List.length_eraseIdx_of_lt h
    simp only [reselectAt]
    split_ifs <;> simp only [List.length_set, hlen] <;> omega
  · omega

/-- `App::dearchive_task` (`app.rs:850`): run the scan loop on the current
batch; a batch left empty is removed (equivalently: erased at
`curr_archive`) and `curr_archive` is clamped back into range (0 when no
batch remains). -/
def App.dearchive_task (a : App) : App :=
  if 0 < a.archive.length then
    if (deGo a.currBatch.tasks [] 0).1.length = 0 then
      { a with
        tasks := a.tasks ++ (deGo a.currBatch.tasks [] 0).2
        archive := a.archive.eraseIdx a.curr_archive
        curr_archive :=
          if (a.archive.eraseIdx a.curr_archive).length = 0 then 0
          else if a.curr_archive ≥ (a.archive.eraseIdx a.curr_archive).length then
            (a.archive.eraseIdx a.curr_archive).length - 1
          else a.curr_archive }
    else
      { a with
        tasks := a.tasks ++ (deGo a.currBatch.tasks [] 0).2
        archive := a.archive.set a.curr_archive
          { a.currBatch with tasks := (deGo a.currBatch.tasks [] 0).1 } }
  else a

/-- `App::inc_arch_item` (`app.rs:802`). -/
def App.inc_arch_item (a : App) : App :=
  if a.archive.length > 0 ∧ a.curr_archive < a.archive.length - 1 then
    { a with curr_archive := a.curr_archive + 1 }
  else a

/-- `App::dec_arch_item` (`app.rs:810`). -/
def App.dec_arch_item (a : App) : App :=
  if a.curr_archive > 0 then { a with curr_archive := a.curr_archive - 1 } else a

/-- Abstract view of the storage folder for `App::new`: each persisted file is
absent (`none`) or present with parsed content. -/
structure FileSys where
  tasks_file : Option (List Task)
  archive_file : Option (List ArchiveItem)
  settings_file : Option Settings
deriving DecidableEq

/-- `App::new` (`app.rs:189`).  An absent tasks or archive file is created on
disk holding the empty array before being read back; the settings file, when
absent, is NOT created — the computed default is only used in memory.  (When
the settings file is present the code reads the relative path
`"settings.json"` instead of the joined folder path; in this single-folder
model the two coincide.)  Loaded tasks have every selection flag cleared and
the first task, if any, selected; archive batches load verbatim. -/
def app_new (fs : FileSys) : FileSys × App :=
  let fs1 := if fs.tasks_file = none then { fs with tasks_file := some [] } else fs
  let parsed := selFirst ((fs1.tasks_file.getD []).map (fun t => t.setSel false))
  let fs2 := if fs1.archive_file = none then { fs1 with archive_file := some [] } else fs1
  let archive_items := fs2.archive_file.getD []
  let settings := match fs2.settings_file with
    | some s => s
    | none => Settings.default_settings
  (fs2,
   { tasks := parsed
     archive := archive_items
     curr_archive := if archive_items.length > 0 then archive_items.length - 1 else 0
     state := AppState.Display
     edit_field := EditField.Description
     desc_width_char := 0, task_block_height := 0, first_task := 0
     first_string := [], blink_char := '\t', second_string := [], cursor_pos := 0
     settings := settings })

/-- The argument handling of `main` (`main.rs:1029`): `in_args` is the full
`env::args()` vector including the program name.  `none` models the
usage-message-plus-panic path (no `App` is created, non-zero exit); `some p`
is the storage path handed to `App::new`. -/
def parse_args (in_args : List String) : Option String :=
  if in_args.length > 3 then none
  else if in_args.length = 1 then some ("./")
  else some (in_args.getD 1 "")

/-- Debug-mode checked subtraction: `none` models the `u16` underflow panic. -/
def checkedSub (a b : Nat) : Option Nat :=
  if b ≤ a then some (a - b) else none

/-- Debug-mode checked `u16` addition: `none` models the overflow panic. -/
def checkedAdd16 (a b : Nat) : Option Nat :=
  if a + b < U16 then some (a + b) else none

/-- The scroll-window adjustment of `App::inc_sel_task` in debug-mode
(panicking) semantics: `first_task + task_block_height` must not overflow
`u16`; when the branch is taken, `task_block_height - 1` and then
`(index+1) as u16 - (task_block_height - 1)` must not underflow. -/
def inc_sel_window_dbg (ft tbh i : Nat) : Option Nat :=
  match checkedAdd16 ft tbh with
  | none => none
  | some s =>
    if s ≤ (i + 1) % U16 then
      match checkedSub tbh 1 with
      | none => none
      | some d => checkedSub ((i + 1) % U16) d
    else some ft

/-- The `Display` branch of `App::inc_sel_task` in debug-mode semantics:
`none` models an arithmetic panic in the window adjustment. -/
def inc_sel_task_dbg (tasks : List Task) (ft tbh : Nat) : Option (List Task × Nat) :=
  if tasks.length > 0 then
    let r := incSelGo tasks
    match r.2 with
    | some i =>
      match inc_sel_window_dbg ft tbh i with
      | none => none
      | some ft2 => some (r.1, ft2)
    | none => some (r.1, ft)
  else some (tasks, ft)

/-- Number of selected tasks in a list. -/
def countSel (l : List Task) : Nat := l.countP (fun t => t.is_selected)

/-- Number of active tasks in a list. -/
def countActive (l : List Task) : Nat := l.countP (fun t => t.is_active)

/-- One user-visible step of the application: every public operation the key
dispatch in `App::run` (`app.rs:296`) can invoke, the periodic tick, and the
direct tab/state switches of the main loop.  `now`/`dt` stand for the wall
clock, which the operations receive but never branch on. -/
inductive Step : App → App → Prop where
  | add_task (a : App) (now : Nat) : Step a (a.add_task now)
  | del_task (a : App) : Step a a.del_task
  | inc_sel_task (a : App) : Step a a.inc_sel_task
  | dec_sel_task (a : App) : Step a a.dec_sel_task
  | move_task_up (a : App) : Step a a.move_task_up
  | move_task_down (a : App) : Step a a.move_task_down
  | do_undo_task (a : App) : Step a a.do_undo_task
  | activate_task (a : App) : Step a a.activate_task
  | archive_done_tasks (a : App) (now : Nat) : Step a (a.archive_done_tasks now)
  | dearchive_task (a : App) : Step a a.dearchive_task
  | enter_edit (a : App) (f : EditField) : Step a (a.enter_edit f)
  | enter_display (a : App) : Step a a.enter_display
  | change_field (a : App) : Step a a.change_field
  | type_in_field (a : App) (c : Char) : Step a (a.type_in_field c)
  | delete_in_field (a : App) : Step a a.delete_in_field
  | dec_cursor (a : App) : Step a a.dec_cursor
  | inc_cursor (a : App) : Step a a.inc_cursor
  | dec_line (a : App) : Step a a.dec_line
  | inc_line (a : App) : Step a a.inc_line
  | inc_arch_item (a : App) : Step a a.inc_arch_item
  | dec_arch_item (a : App) : Step a a.dec_arch_item
  | update_times (a : App) (dt : Nat) : Step a (a.update_times dt)
  | goto (a : App) (s : AppState) : Step a { a with state := s }

/-- `st` is reachable from the startup state `App::new` produced over the
storage folder `fs` by any sequence of public operations. -/
def Reachable (fs : FileSys) (st : App) : Prop :=
  Relation.ReflTransGen Step (app_new fs).2 st

/-- The inductive invariant of the application state: selection counts (at
most one selected in the active list, exactly one in every non-empty archive
batch), at most one active task, done tasks are never active, archived tasks
are never active, and the current-batch index is in range. -/
def AppInv (a : App) : Prop :=
  countSel a.tasks ≤ 1 ∧
  (∀ b ∈ a.archive, b.tasks ≠ [] → countSel b.tasks = 1) ∧
  countActive a.tasks ≤ 1 ∧
  (∀ t ∈ a.tasks, t.is_done = true → t.is_active = false) ∧
  (∀ b ∈ a.archive, ∀ t ∈ b.tasks, t.is_active = false) ∧
  (a.archive = [] ∨ a.curr_archive < a.archive.length)

/-- Well-formedness of the persisted files, as the program itself writes
them (`save_to_db` serialises a state satisfying `AppInv`): done tasks are
inactive, at most one task is active, and every non-empty archive batch has
exactly one selected, no active, task. -/
def GoodFS (fs : FileSys) : Prop :=
  (∀ t ∈ fs.tasks_file.getD [], t.is_done = true → t.is_active = false) ∧
  countActive (fs.tasks_file.getD []) ≤ 1 ∧
  (∀ b ∈ fs.archive_file.getD [],
    (b.tasks ≠ [] → countSel b.tasks = 1) ∧ ∀ t ∈ b.tasks, t.is_active = false)

/-- The storage folder of a first run: no file exists yet. -/
def fsEmpty : FileSys :=
  { tasks_file := none, archive_file := none, settings_file := none }

/-- The startup state of a first run: no tasks, no archive. -/
def app0 : App := (app_new fsEmpty).2

/-- Key `a` on the first run: add a (blank) task; the app is now editing its
title. -/
def c1s1 : App := app0.add_task 0

/-- Key `Esc`: commit the title and return to `Display`. -/
def c1s2 : App := c1s1.enter_display

/-- Key space: mark the (selected) task done. -/
def c1s3 : App := c1s2.do_undo_task

/-- Keys `c`, `Enter`: archive the done task into a fresh batch. -/
def c1s4 : App := c1s3.archive_done_tasks 0

/-- Key `Tab`: switch to the `Archived` view. -/
def c1s5 : App := { c1s4 with state := AppState.Archived }

/-- Key space in the `Archived` view: dearchive the batch's only task.  The
task returns to the (previously empty) active list with its selection flag
cleared — the active list is now non-empty with no selected task. -/
def c1s6 : App := c1s5.dearchive_task

/-- A task whose description is `"ab"`, as the selected task of a state used
to exercise the edit engine. -/
def taskAB : Task :=
  { title := ['t'], description := ['a', 'b'], is_done := false, is_active := false
    is_selected := true, elapsed_time := 0, created_on := 0 }

/-- A display state holding only `taskAB`, with the renderer-supplied wrap
width 4 already captured. -/
def appAB : App :=
  { app0 with tasks := [taskAB], desc_width_char := 4 }

/-- `appAB` after key `e` (enter description edit) and one `Left` key
(`dec_cursor`): the `'\t'` caret sentinel has been pushed into
`second_string`. -/
def appABdec : App := (appAB.enter_edit EditField.Description).dec_cursor

/-- A task whose description is `"a\nbc"`, used to reach an edit state whose
caret holds a real buffer character while `second_string` is empty. -/
def taskANBC : Task :=
  { title := ['t'], description := ['a', '\n', 'b', 'c'], is_done := false
    is_active := false, is_selected := true, elapsed_time := 0, created_on := 0 }

/-- A display state holding only `taskANBC`, wrap width 4. -/
def appANBC : App :=
  { app0 with tasks := [taskANBC], desc_width_char := 4 }

/-- `appANBC` after key `e` (enter description edit), then Down, Up, Down
(`inc_line`, `dec_line`, `inc_line`): the caret lands on the real buffer
character `'c'` with `second_string` empty. -/
def c3state : App :=
  (((appANBC.enter_edit EditField.Description).inc_line).dec_line).inc_line

/-! ## Generic list lemmas -/

theorem countP_set_balance (p : Todo.Task → Bool) :
    ∀ (l : List Todo.Task) (i : Nat) (x : Todo.Task), i < l.length →
    (l.set i x).countP p + (if p (l.getD i defTask) then 1 else 0)
      = l.countP p + (if p x then 1 else 0) := by
  intro l
  induction l with
  | nil => intro i x h; simp at h
  | cons a rest ih =>
    intro i x h
    cases i with
    | zero => simp [List.countP_cons]; omega
    | succ j =>
      have hj : j < rest.length := by simpa using h
      have := ih j x hj
      simp only [List.set_cons_succ, List.countP_cons, List.getD_cons_succ]
      omega

theorem getD_set_ne {α : Type} (d : α) :
    ∀ (l : List α) (i j : Nat) (x : α), i ≠ j → (l.set i x).getD j d = l.getD j d := by
  intro l
  induction l with
  | nil => intro i j x _; simp
  | cons a rest ih =>
    intro i j x hne
    cases i with
    | zero =>
      cases j with
      | zero => exact absurd rfl hne
      | succ k => simp
    | succ i' =>
      cases j with
      | zero => simp
      | succ k => simpa using ih i' k x (by omega)

theorem getD_eraseIdx_ge {α : Type} (d : α) :
    ∀ (l : List α) (p j : Nat), p ≤ j → (l.eraseIdx p).getD j d = l.getD (j + 1) d := by
  intro l
  induction l with
  | nil => intro p j _; simp
  | cons a rest ih =>
    intro p j hpj
    cases p with
    | zero => simp [List.eraseIdx_cons_zero]
    | succ p' =>
      cases j with
      | zero => omega
      | succ k => simpa [List.eraseIdx_cons_succ] using ih p' k (by omega)

theorem getD_length_append {α : Type} (d : α) :
    ∀ (f : List α) (b : α) (r : List α), (f ++ b :: r).getD f.length d = b := by
  intro f
  induction f with
  | nil => intro b r; rfl
  | cons a rest ih => intro b r; simpa using ih b r

theorem drop_length_append {α : Type} :
    ∀ (f : List α) (b : α) (r : List α), (f ++ b :: r).drop (f.length + 1) = r := by
  intro f
  induction f with
  | nil => intro b r; rfl
  | cons a rest ih => intro b r; simp [ih b r]

theorem getElem_length_append {α : Type} :
    ∀ (f : List α) (b : α) (r : List α) (h : f.length < (f ++ b :: r).length),
    (f ++ b :: r)[f.length] = b := by
  intro f
  induction f with
  | nil => intro b r h; rfl
  | cons a rest ih =>
    intro b r h
    simpa using ih b r (by simp)

/-! ## The soft-wrap walk: `get_cursor_pos` / `set_cursor_pos` -/

/-- Along the wrap walk the row never decreases, and a walk that ends on its
starting row advanced the column by exactly the number of characters
consumed. -/
theorem wrapWalk_spec (w : Nat) :
    ∀ (f : List Char) (p : Nat × Nat),
    p.2 ≤ (List.foldl (wrapStep w) p f).2 ∧
    ((List.foldl (wrapStep w) p f).2 = p.2 →
      (List.foldl (wrapStep w) p f).1 = p.1 + f.length) := by
  intro f
  induction f with
  | nil => intro p; simp
  | cons c rest ih =>
    intro p
    rw [List.foldl_cons]
    by_cases hc : c = '\n'
    · have hs : wrapStep w p c = (0, p.2 + 1) := by simp [wrapStep, hc]
      rw [hs]
      rcases ih (0, p.2 + 1) with ⟨h1, h2⟩
      dsimp only at h1 h2
      exact ⟨by omega, by intro hy; omega⟩
    · by_cases hw : w ≤ p.1
      · have hs : wrapStep w p c = (p.1 - w, p.2 + 1) := by simp [wrapStep, hc, hw]
        rw [hs]
        rcases ih (p.1 - w, p.2 + 1) with ⟨h1, h2⟩
        dsimp only at h1 h2
        exact ⟨by omega, by intro hy; omega⟩
      · have hs : wrapStep w p c = (p.1 + 1, p.2) := by simp [wrapStep, hc, hw]
        rw [hs]
        rcases ih (p.1 + 1, p.2) with ⟨h1, h2⟩
        dsimp only at h1 h2
        refine ⟨by omega, ?_⟩
        intro hy
        have := h2 hy
        simp only [List.length_cons]
        omega

/-- Scanning a buffer for the very position the walk over that buffer ends at
finds nothing: the walk never passes through a position that already
satisfies the stop condition for its own endpoint. -/
theorem findSplit_walk_none (w : Nat) :
    ∀ (f : List Char) (p : Nat × Nat),
    findSplit w (List.foldl (wrapStep w) p f).1 (List.foldl (wrapStep w) p f).2 p f
      = none := by
  intro f
  induction f with
  | nil => intro p; rfl
  | cons c rest ih =>
    intro p
    have hspec := wrapWalk_spec w (c :: rest) p
    rw [List.foldl_cons] at hspec ⊢
    by_cases hc : c = '\n'
    · have hs : wrapStep w p c = (0, p.2 + 1) := by simp [wrapStep, hc]
      rw [hs] at hspec ⊢
      have hne : ¬((List.foldl (wrapStep w) (0, p.2 + 1) rest).1 ≤ p.1 ∧
          p.2 = (List.foldl (wrapStep w) (0, p.2 + 1) rest).2) := by
        rintro ⟨hle, hy⟩
        have := hspec.2 hy.symm
        simp only [List.length_cons] at this
        omega
      have hy2 : ¬(p.2 = (List.foldl (wrapStep w) (0, p.2 + 1) rest).2) := by
        have h1 := (wrapWalk_spec w rest (0, p.2 + 1)).1
        dsimp only at h1
        omega
      have ihx := ih (0, p.2 + 1)
      simp [findSplit, hne, hc, hy2, ihx]
    · by_cases hw : w ≤ p.1
      · have hs : wrapStep w p c = (p.1 - w, p.2 + 1) := by simp [wrapStep, hc, hw]
        rw [hs] at hspec ⊢
        have hne : ¬((List.foldl (wrapStep w) (p.1 - w, p.2 + 1) rest).1 ≤ p.1 ∧
            p.2 = (List.foldl (wrapStep w) (p.1 - w, p.2 + 1) rest).2) := by
          rintro ⟨hle, hy⟩
          have := hspec.2 hy.symm
          simp only [List.length_cons] at this
          omega
        have ihx := ih (p.1 - w, p.2 + 1)
        simp [findSplit, hne, hc, hw, ihx]
      · have hs : wrapStep w p c = (p.1 + 1, p.2) := by simp [wrapStep, hc, hw]
        rw [hs] at hspec ⊢
        have hne : ¬((List.foldl (wrapStep w) (p.1 + 1, p.2) rest).1 ≤ p.1 ∧
            p.2 = (List.foldl (wrapStep w) (p.1 + 1, p.2) rest).2) := by
          rintro ⟨hle, hy⟩
          have := hspec.2 hy.symm
          simp only [List.length_cons] at this
          omega
        have ihx := ih (p.1 + 1, p.2)
        simp [findSplit, hne, hc, hw, ihx]

/-- Scanning `f ++ b :: s` for the endpoint of the walk over `f` stops
exactly at offset `f.length`. -/
theorem findSplit_walk_append (w : Nat) :
    ∀ (f : List Char) (p : Nat × Nat) (b : Char) (s : List Char),
    findSplit w (List.foldl (wrapStep w) p f).1 (List.foldl (wrapStep w) p f).2 p
        (f ++ b :: s) = some f.length := by
  intro f
  induction f with
  | nil => intro p b s; simp [findSplit]
  | cons c rest ih =>
    intro p b s
    have hspec := wrapWalk_spec w (c :: rest) p
    rw [List.foldl_cons] at hspec ⊢
    by_cases hc : c = '\n'
    · have hs : wrapStep w p c = (0, p.2 + 1) := by simp [wrapStep, hc]
      rw [hs] at hspec ⊢
      have hne : ¬((List.foldl (wrapStep w) (0, p.2 + 1) rest).1 ≤ p.1 ∧
          p.2 = (List.foldl (wrapStep w) (0, p.2 + 1) rest).2) := by
        rintro ⟨hle, hy⟩
        have := hspec.2 hy.symm
        simp only [List.length_cons] at this
        omega
      have hy2 : ¬(p.2 = (List.foldl (wrapStep w) (0, p.2 + 1) rest).2) := by
        have h1 := (wrapWalk_spec w rest (0, p.2 + 1)).1
        dsimp only at h1
        omega
      have ihx := ih (0, p.2 + 1) b s
      simp [findSplit, hne, hc, hy2, ihx]
    · by_cases hw : w ≤ p.1
      · have hs : wrapStep w p c = (p.1 - w, p.2 + 1) := by simp [wrapStep, hc, hw]
        rw [hs] at hspec ⊢
        have hne : ¬((List.foldl (wrapStep w) (p.1 - w, p.2 + 1) rest).1 ≤ p.1 ∧
            p.2 = (List.foldl (wrapStep w) (p.1 - w, p.2 + 1) rest).2) := by
          rintro ⟨hle, hy⟩
          have := hspec.2 hy.symm
          simp only [List.length_cons] at this
          omega
        have ihx := ih (p.1 - w, p.2 + 1) b s
        simp [findSplit, hne, hc, hw, ihx]
      · have hs : wrapStep w p c = (p.1 + 1, p.2) := by simp [wrapStep, hc, hw]
        rw [hs] at hspec ⊢
        have hne : ¬((List.foldl (wrapStep w) (p.1 + 1, p.2) rest).1 ≤ p.1 ∧
            p.2 = (List.foldl (wrapStep w) (p.1 + 1, p.2) rest).2) := by
          rintro ⟨hle, hy⟩
          have := hspec.2 hy.symm
          simp only [List.length_cons] at this
          omega
        have ihx := ih (p.1 + 1, p.2) b s
        simp [findSplit, hne, hc, hw, ihx]

/-- C3 (amended): for every edit-engine state `(first_string, blink_char,
second_string)` and every wrap width, projecting the caret with
`get_cursor_pos` and feeding the resulting `(x, y)` straight back into
`set_cursor_pos` preserves `recon` — `first_string`, plus `blink_char` and
`second_string` only when `second_string` is non-empty, exactly the rebuild
the program itself performs — but NOT the claim's concatenation with the
caret included whenever it is real: with an empty suffix a real caret
character is discarded by the rebuild (see the counterexample). -/
theorem cursor_roundtrip_preserves_buffer (w : Nat) (f : List Char) (b : Char)
    (s : List Char) :
    recon (set_cursor_pos w (get_cursor_pos w f).1 (get_cursor_pos w f).2 f b s).1
          (set_cursor_pos w (get_cursor_pos w f).1 (get_cursor_pos w f).2 f b s).2.1
          (set_cursor_pos w (get_cursor_pos w f).1 (get_cursor_pos w f).2 f b s).2.2.1
      = recon f b s := by
  cases s with
  | nil =>
    have hrec : recon f b [] = f := by simp [recon]
    have hfind := findSplit_walk_none w f (0, 0)
    simp only [set_cursor_pos, get_cursor_pos, hrec] at *
    rw [hfind]
    simp [recon]
  | cons c s2 =>
    have hrec : recon f b (c :: s2) = f ++ b :: c :: s2 := by simp [recon]
    have hfind := findSplit_walk_append w f (0, 0) b (c :: s2)
    simp only [set_cursor_pos, get_cursor_pos, hrec] at *
    rw [hfind]
    simp [recon, List.take_left, getD_length_append, getElem_length_append,
      drop_length_append, hrec]

/-- C3 (counterexample): in the reachable edit state `c3state` — obtained by
entering edit mode on the description `"a\nbc"` (wrap width 4) and pressing
Down, Up, Down — the buffer split is `first_string = "a\nb"`,
`blink_char = 'c'` (a real buffer character, not a sentinel),
`second_string = ""`.  Round-tripping this very state through
`get_cursor_pos` and `set_cursor_pos` returns the caret as the `' '`
end-of-buffer sentinel, and the resulting prefix and suffix no longer carry
the `'c'`: the concatenation `prefix + caret(when real) + suffix` shrinks
from `"a\nbc"` to `"a\nb"`, refuting the claimed round-trip identity. -/
theorem cursor_roundtrip_drops_real_caret :
    c3state.first_string = ['a', '\n', 'b'] ∧
    c3state.blink_char = 'c' ∧
    c3state.second_string = [] ∧
    (set_cursor_pos 4 (get_cursor_pos 4 c3state.first_string).1
        (get_cursor_pos 4 c3state.first_string).2
        c3state.first_string c3state.blink_char c3state.second_string).2.1 = ' ' ∧
    (set_cursor_pos 4 (get_cursor_pos 4 c3state.first_string).1
        (get_cursor_pos 4 c3state.first_string).2
        c3state.first_string c3state.blink_char c3state.second_string).1 ++
      (set_cursor_pos 4 (get_cursor_pos 4 c3state.first_string).1
        (get_cursor_pos 4 c3state.first_string).2
        c3state.first_string c3state.blink_char c3state.second_string).2.2.1 ≠
      c3state.first_string ++ [c3state.blink_char] ++ c3state.second_string := by
  decide

/-! ## Concrete behaviour of the cursor projection and the edit commits -/

/-- C2 (counterexample): with the eight characters `"abcdefgh"` in the
prefix and wrap width 4, `get_cursor_pos` does NOT return `(0, 2)`. -/
theorem cursor_position_abcdefgh_not_0_2 :
    get_cursor_pos 4 (String.toList ("abcdefgh")) ≠ (0, 2) := by decide

/-- C2 (amended): with prefix `"abcdefgh"` and wrap width 4,
`get_cursor_pos` returns `(3, 1)`: the wrap step consumes a character
without advancing the column, so the first wrapped row effectively holds
five characters and the caret ends at column 3 of row 1. -/
theorem cursor_position_abcdefgh_eq_3_1 :
    get_cursor_pos 4 (String.toList ("abcdefgh")) = (3, 1) := by decide

/-- C4 (code bug, evaluated at the failing input): entering edit mode on the
description `"ab"` and pressing Left once (`dec_cursor`) leaves the engine
state with `prefix = "a"`, `caret_char = 'b'` (a real buffer character) and
`suffix = "\t"`: the reconstruction `prefix + caret_char + suffix` is
`"ab\t"`, not `"ab"` — the `'\t'` caret sentinel has leaked into the
suffix. -/
theorem dec_cursor_leaks_sentinel :
    recon appABdec.first_string appABdec.blink_char appABdec.second_string
        = ['a', 'b', '\t'] ∧
    appABdec.first_string = ['a'] ∧ appABdec.blink_char = 'b' ∧
    appABdec.second_string = ['\t'] := by decide

/-- C6 (code bug, evaluated at the failing input): entering edit mode on the
description `"ab"`, moving the caret once (no insertion or deletion), and
committing with `enter_display` stores `"ab\t"` — not the original `"ab"` —
into the task's description. -/
theorem caret_move_then_commit_adds_tab :
    ((appABdec.enter_display).tasks.getD 0 defTask).description = ['a', 'b', '\t'] := by
  decide

/-- C5 (counterexample): in the title editor, typing a line break and
committing with `enter_display` leaves the line break in the stored title —
a committed title CAN contain a line break. -/
theorem title_commit_keeps_line_break :
    '\n' ∈ (((appAB.enter_edit EditField.Title).type_in_field '\n').enter_display.tasks.getD
        0 defTask).title := by decide

/-- C8 (counterexample): starting the app over a folder with no settings
file does not create the settings file on disk — `App::new` only computes
the default settings value in memory. -/
theorem app_new_does_not_create_settings_file :
    (app_new fsEmpty).1.settings_file = none := by decide

/-- C9 (code bug, evaluated at the failing input): `main` accepts TWO
positional arguments (`env::args()` length 3) and silently proceeds with the
first, ignoring the second; only three or more positional arguments hit the
usage-error/exit path, although the usage message itself documents at most
one argument. -/
theorem parse_args_accepts_two_positional_args :
    parse_args [("todo"), ("a"), ("b")] = some ("a") ∧
    parse_args [("todo"), ("a"), ("b"), ("c")] = none := by decide

/-! ## The scroll-window arithmetic of `inc_sel_task` (C10) -/

/-- When the first selected task is not the last task, the `inc_sel_task`
scan finds it. -/
theorem incSelGo_found :
    ∀ (l : List Task), l.findIdx (fun t => t.is_selected) + 1 < l.length →
    (incSelGo l).2 = some (l.findIdx (fun t => t.is_selected)) := by
  intro l
  induction l with
  | nil => intro h; simp at h
  | cons a rest ih =>
    intro h
    cases rest with
    | nil => exfalso; simp only [List.length_cons, List.length_nil] at h; omega
    | cons b rest2 =>
      by_cases ha : a.is_selected
      · simp [incSelGo, ha, List.findIdx_cons]
      · have htail : (b :: rest2).findIdx (fun t => t.is_selected) + 1
            < (b :: rest2).length := by
          simp only [List.findIdx_cons, ha, cond_false, List.length_cons] at h ⊢
          omega
        have := ih htail
        simp [incSelGo, ha, List.findIdx_cons, this]

/-- C10 (confirmed): the scroll adjustment of `inc_sel_task` computes
`(index + 1) as u16 - (task_block_height - 1)` in `u16`.  With the
renderer-supplied window height still 0 (its `App::new` initial value, before
the first frame sizes it) and `first_task` still 0, any state whose selected
task is not last takes the adjustment branch and `task_block_height - 1`
underflows `u16` — a panic in debug builds (`none` in the checked model).
With `task_block_height ≥ 1` (and no `u16` overflow in the branch guard) the
adjustment is always well defined: in the branch,
`task_block_height - 1 < first_task + task_block_height ≤ (index+1) as u16`,
so the subtraction cannot underflow. -/
theorem inc_sel_window_underflow :
    (∀ (tasks : List Task) (i : Nat),
      tasks.findIdx (fun t => t.is_selected) = i → i + 1 < tasks.length →
      inc_sel_task_dbg tasks 0 0 = none) ∧
    (∀ (ft tbh i : Nat), 1 ≤ tbh → ft + tbh < U16 →
      inc_sel_window_dbg ft tbh i ≠ none) := by
  constructor
  · intro tasks i hidx hlt
    subst hidx
    have hfound := incSelGo_found tasks hlt
    have hlen : 0 < tasks.length := by omega
    unfold inc_sel_task_dbg
    simp only [hlen, if_pos, hfound]
    simp [inc_sel_window_dbg, checkedAdd16, checkedSub, U16]
  · intro ft tbh i h1 h2
    unfold inc_sel_window_dbg checkedAdd16
    rw [if_pos h2]
    by_cases hbr : ft + tbh ≤ (i + 1) % U16
    · have hd : checkedSub tbh 1 = some (tbh - 1) := by
        unfold checkedSub
        rw [if_pos h1]
      simp only [if_pos hbr, hd]
      unfold checkedSub
      rw [if_pos (by omega)]
      simp
    · simp [hbr]

/-- Witness for C10 at a concrete input: two tasks with the first selected,
window height 0 — the debug model panics; with window height 1 the
adjustment arithmetic is defined. -/
theorem inc_sel_window_underflow_witness :
    inc_sel_task_dbg [defTask.setSel true, defTask] 0 0 = none ∧
    inc_sel_window_dbg 0 1 0 ≠ none := by
  constructor
  · exact inc_sel_window_underflow.1 [defTask.setSel true, defTask] 0 (by decide) (by decide)
  · exact inc_sel_window_underflow.2 0 1 0 (by decide) (by decide)

/-! ## Startup behaviour (C8) -/

/-- C8 (amended): at startup, an absent tasks or archive file is created on
disk holding the empty array; an absent settings file is NOT created — the
settings file on disk is left exactly as it was and the computed default is
only used in memory (it reaches disk only via `save_settings` on quit).
Loaded tasks get every selection flag cleared and the first task, if any,
selected; archive batches load verbatim. -/
theorem app_new_spec_amended (fs : FileSys) :
    (app_new fs).1.tasks_file = some (fs.tasks_file.getD []) ∧
    (app_new fs).1.archive_file = some (fs.archive_file.getD []) ∧
    (app_new fs).1.settings_file = fs.settings_file ∧
    (app_new fs).2.tasks = selFirst ((fs.tasks_file.getD []).map (fun t => t.setSel false)) ∧
    (app_new fs).2.archive = fs.archive_file.getD [] ∧
    (app_new fs).2.settings = fs.settings_file.getD Settings.default_settings := by
  rcases fs with ⟨tf, af, sf⟩
  cases tf <;> cases af <;> cases sf <;> simp [app_new]

/-! ## What the edit commits actually write (C5) -/

/-- A map that only rewrites selected tasks leaves an all-unselected list
unchanged. -/
theorem map_commit_unsel (g : Task → Task) :
    ∀ (u : List Task), (∀ x ∈ u, x.is_selected = false) →
    u.map (fun t => if t.is_selected then g t else t) = u := by
  intro u
  induction u with
  | nil => intro _; rfl
  | cons a rest ih =>
    intro h
    have ha := h a (by simp)
    simp [ha, ih (fun x hx => h x (by simp [hx]))]

/-- `change_field`'s loop skips an all-unselected list, keeping its edit
state. -/
theorem changeFieldGo_unsel (es : List Char × Char × List Char × Nat × EditField) :
    ∀ (v : List Task), (∀ x ∈ v, x.is_selected = false) →
    changeFieldGo es v = (v, es) := by
  intro v
  induction v with
  | nil => intro _; rfl
  | cons a rest ih =>
    intro h
    have ha := h a (by simp)
    simp [changeFieldGo, ha, ih (fun x hx => h x (by simp [hx]))]

/-- `change_field`'s loop passes over an all-unselected prefix untouched. -/
theorem changeFieldGo_unsel_prefix (es : List Char × Char × List Char × Nat × EditField) :
    ∀ (u rest : List Task), (∀ x ∈ u, x.is_selected = false) →
    changeFieldGo es (u ++ rest)
      = ((u ++ (changeFieldGo es rest).1), (changeFieldGo es rest).2) := by
  intro u
  induction u with
  | nil => intro rest _; simp
  | cons a u2 ih =>
    intro rest h
    have ha := h a (by simp)
    simp [changeFieldGo, ha, ih rest (fun x hx => h x (by simp [hx]))]

/-- C5 (amended): committing the edit writes
`prefix ++ caret_char (when the suffix is non-empty) ++ suffix` into the
selected task's field.  `enter_display` strips `'\t'` characters from the
title — and nothing else: the description is written verbatim, the space
sentinel is never stripped, and embedded line breaks are never removed (so a
committed title CAN contain one); `change_field` writes both fields verbatim
with no stripping at all. -/
theorem commit_field_spec_amended (a : App) (u v : List Task) (t : Task)
    (hu : ∀ x ∈ u, x.is_selected = false) (hv : ∀ x ∈ v, x.is_selected = false)
    (ht : t.is_selected = true) (hstate : a.state = AppState.EditTask)
    (htasks : a.tasks = u ++ t :: v) :
    (a.edit_field = EditField.Title → a.enter_display.tasks = u ++ ({ t with title := (recon a.first_string a.blink_char a.second_string).filter (fun c => c ≠ '\t') } :: v)) ∧
    (a.edit_field = EditField.Description → a.enter_display.tasks = u ++ ({ t with description := recon a.first_string a.blink_char a.second_string } :: v)) ∧
    (a.edit_field = EditField.Title → a.change_field.tasks = u ++ ({ t with title := recon a.first_string a.blink_char a.second_string } :: v)) ∧
    (a.edit_field = EditField.Description → a.change_field.tasks = u ++ ({ t with description := recon a.first_string a.blink_char a.second_string } :: v)) := by
  have hany : a.tasks.any (fun x => x.is_selected) = true := by
    rw [htasks]
    simp only [List.any_append, List.any_cons, ht]
    simp
  have hmap : ∀ g : Task → Task,
      a.tasks.map (fun x => if x.is_selected then g x else x) = u ++ (g t :: v) := by
    intro g
    rw [htasks, List.map_append, List.map_cons, map_commit_unsel g u hu, ht]
    simp [map_commit_unsel g v hv]
  have hcf : a.change_field.tasks
      = u ++ ((changeFieldStep
          (a.first_string, a.blink_char, a.second_string, a.cursor_pos, a.edit_field) t).1 :: v) := by
    unfold App.change_field
    rw [htasks, changeFieldGo_unsel_prefix _ u (t :: v) hu]
    simp [changeFieldGo, ht, changeFieldGo_unsel _ v hv]
  refine ⟨?_, ?_, ?_, ?_⟩
  · intro hf
    unfold App.enter_display
    simp only [hstate, if_pos rfl, hany, hmap (commitField a)]
    simp [commitField, hf]
  · intro hf
    unfold App.enter_display
    simp only [hstate, if_pos rfl, hany, hmap (commitField a)]
    simp [commitField, hf]
  · intro hf
    rw [hcf]
    simp [changeFieldStep, hf]
  · intro hf
    rw [hcf]
    simp [changeFieldStep, hf]

/-- Witness for C5's amended commit description at a concrete input: editing
`taskAB`'s description and committing immediately stores the reconstruction
verbatim. -/
theorem commit_field_spec_amended_witness :
    (appAB.enter_edit EditField.Description).enter_display.tasks
      = [] ++ ({ taskAB with description := recon (appAB.enter_edit EditField.Description).first_string (appAB.enter_edit EditField.Description).blink_char (appAB.enter_edit EditField.Description).second_string } :: []) :=
  (commit_field_spec_amended (appAB.enter_edit EditField.Description) [] [] taskAB
    (by simp) (by simp) (by decide) (by decide) (by decide)).2.1 (by decide)

/-! ## Counting lemmas for the task-list operations -/

theorem countP_eraseIdx_balance (p : Todo.Task → Bool) :
    ∀ (l : List Todo.Task) (i : Nat), i < l.length →
    (l.eraseIdx i).countP p + (if p (l.getD i defTask) then 1 else 0) = l.countP p := by
  intro l
  induction l with
  | nil => intro i h; simp at h
  | cons a rest ih =>
    intro i h
    cases i with
    | zero => simp [List.countP_cons]
    | succ j =>
      have hj : j < rest.length := by simpa using h
      have := ih j hj
      simp only [List.eraseIdx_cons_succ, List.countP_cons, List.getD_cons_succ]
      omega

/-- Exactly one selected task: its index, with every other index
unselected. -/
theorem countSel_one_idx :
    ∀ (l : List Task), countSel l = 1 →
    ∃ p, p < l.length ∧ (l.getD p defTask).is_selected = true ∧
      ∀ j, j < l.length → j ≠ p → (l.getD j defTask).is_selected = false := by
  intro l
  induction l with
  | nil => intro h; simp [countSel] at h
  | cons a rest ih =>
    intro h
    by_cases ha : a.is_selected
    · have hrest : countSel rest = 0 := by
        simp [countSel, List.countP_cons, ha] at h
        simpa [countSel] using h
      refine ⟨0, by simp, by simpa using ha, ?_⟩
      intro j hj hne
      cases j with
      | zero => exact absurd rfl hne
      | succ k =>
        have hk : k < rest.length := by simpa using hj
        have hmem : rest.getD k defTask ∈ rest := by
          rw [List.getD_eq_getElem rest defTask hk]
          exact List.getElem_mem hk
        have := List.countP_eq_zero.mp hrest _ hmem
        simpa using this
    · have hrest : countSel rest = 1 := by
        simpa [countSel, List.countP_cons, ha] using h
      rcases ih hrest with ⟨p, hp, hsel, hothers⟩
      refine ⟨p + 1, by simpa using hp, by simpa using hsel, ?_⟩
      intro j hj hne
      cases j with
      | zero => simpa using ha
      | succ k => simpa using hothers k (by simpa using hj) (by omega)

theorem countSel_le_one_cases (l : List Task) (h : countSel l ≤ 1) :
    countSel l = 0 ∨ countSel l = 1 := by omega

/-- `selFirst` preserves every flag but the head's selection. -/
theorem countActive_selFirst (l : List Task) :
    countActive (selFirst l) = countActive l := by
  cases l with
  | nil => rfl
  | cons a rest => simp [selFirst, countActive, List.countP_cons, Task.setSel]

theorem countSel_selFirst_of_zero (l : List Task) (h : countSel l = 0) (hne : l ≠ []) :
    countSel (selFirst l) = 1 := by
  cases l with
  | nil => exact absurd rfl hne
  | cons a rest =>
    simp [countSel, List.countP_cons] at h
    have h0 : rest.countP (fun t => t.is_selected) = 0 :=
      List.countP_eq_zero.mpr (fun x hx => by simp [h.1 x hx])
    simp [selFirst, countSel, List.countP_cons, Task.setSel, h0]

theorem forall_selFirst (P : Task → Prop) (hP : ∀ t, P t → P (t.setSel true))
    (l : List Task) (h : ∀ t ∈ l, P t) : ∀ t ∈ selFirst l, P t := by
  cases l with
  | nil => simp [selFirst]
  | cons a rest =>
    intro t ht
    rcases List.mem_cons.mp ht with h1 | h2
    · exact h1 ▸ hP a (h a (by simp))
    · exact h t (by simp [h2])

/-- The invariant only reads `tasks`, `archive` and `curr_archive`: any
operation leaving those three fields unchanged preserves it. -/
theorem AppInv_mk {a b : App} (ht : b.tasks = a.tasks) (har : b.archive = a.archive)
    (hc : b.curr_archive = a.curr_archive) (h : AppInv a) : AppInv b := by
  unfold AppInv at h ⊢
  rw [ht, har, hc]
  exact h

/-! ## Invariant preservation, operation by operation -/

theorem inv_enter_edit (a : App) (f : EditField) (h : AppInv a) :
    AppInv (a.enter_edit f) := by
  unfold App.enter_edit
  cases a.tasks.find? (fun t => t.is_selected) with
  | none => exact h
  | some t => exact AppInv_mk rfl rfl rfl h

theorem inv_type_in_field (a : App) (c : Char) (h : AppInv a) :
    AppInv (a.type_in_field c) :=
  AppInv_mk rfl rfl rfl h

theorem inv_delete_in_field (a : App) (h : AppInv a) : AppInv a.delete_in_field := by
  unfold App.delete_in_field
  split
  · exact AppInv_mk rfl rfl rfl h
  · exact h

theorem inv_dec_cursor (a : App) (h : AppInv a) : AppInv a.dec_cursor := by
  unfold App.dec_cursor
  split
  · exact AppInv_mk rfl rfl rfl h
  · exact h

theorem inv_inc_cursor (a : App) (h : AppInv a) : AppInv a.inc_cursor := by
  unfold App.inc_cursor
  cases a.second_string with
  | nil => exact h
  | cons c rest => exact AppInv_mk rfl rfl rfl h

theorem inv_dec_line (a : App) (h : AppInv a) : AppInv a.dec_line := by
  unfold App.dec_line App.applyCursor
  split
  · split
    · exact AppInv_mk rfl rfl rfl h
    · exact AppInv_mk rfl rfl rfl h
  · exact h

theorem inv_inc_line (a : App) (h : AppInv a) : AppInv a.inc_line :=
  AppInv_mk rfl rfl rfl h

theorem inv_goto (a : App) (s : AppState) (h : AppInv a) :
    AppInv { a with state := s } :=
  AppInv_mk rfl rfl rfl h

theorem inv_inc_arch_item (a : App) (h : AppInv a) : AppInv a.inc_arch_item := by
  unfold App.inc_arch_item
  split
  · rename_i hcond
    obtain ⟨h1, h2, h3, h4, h5, h6⟩ := h
    obtain ⟨hl, hc⟩ := hcond
    refine ⟨h1, h2, h3, h4, h5, Or.inr ?_⟩
    show a.curr_archive + 1 < a.archive.length
    omega
  · exact h

theorem inv_dec_arch_item (a : App) (h : AppInv a) : AppInv a.dec_arch_item := by
  unfold App.dec_arch_item
  split
  · rename_i hcond
    obtain ⟨h1, h2, h3, h4, h5, h6⟩ := h
    refine ⟨h1, h2, h3, h4, h5, ?_⟩
    rcases h6 with h0 | h0
    · exact Or.inl h0
    · refine Or.inr ?_
      show a.curr_archive - 1 < a.archive.length
      omega
  · exact h

/-- Components of the invariant transfer across a map that preserves all
three flags pointwise. -/
theorem inv_components_map (f : Task → Task)
    (hsel : ∀ t, (f t).is_selected = t.is_selected)
    (hact : ∀ t, (f t).is_active = t.is_active)
    (hdone : ∀ t, (f t).is_done = t.is_done) (l : List Task) :
    countSel (l.map f) = countSel l ∧ countActive (l.map f) = countActive l ∧
    ((∀ t ∈ l, t.is_done = true → t.is_active = false) →
      ∀ t ∈ l.map f, t.is_done = true → t.is_active = false) := by
  refine ⟨?_, ?_, ?_⟩
  · rw [countSel, List.countP_map]
    exact List.countP_congr (fun t _ => by simp [hsel t])
  · rw [countActive, List.countP_map]
    exact List.countP_congr (fun t _ => by simp [hact t])
  · intro hD t ht
    rcases List.mem_map.mp ht with ⟨x, hx, rfl⟩
    rw [hdone x, hact x]
    exact hD x hx

theorem countSel_map (f : Task → Task) (hf : ∀ t, (f t).is_selected = t.is_selected)
    (l : List Task) : countSel (l.map f) = countSel l := by
  rw [countSel, List.countP_map]
  exact List.countP_congr (fun t _ => by simp [hf t])

theorem countActive_map (f : Task → Task) (hf : ∀ t, (f t).is_active = t.is_active)
    (l : List Task) : countActive (l.map f) = countActive l := by
  rw [countActive, List.countP_map]
  exact List.countP_congr (fun t _ => by simp [hf t])

theorem forall_D_map (f : Task → Task)
    (hf : ∀ t, (t.is_done = true → t.is_active = false) →
      (f t).is_done = true → (f t).is_active = false)
    (l : List Task) (h : ∀ t ∈ l, t.is_done = true → t.is_active = false) :
    ∀ t ∈ l.map f, t.is_done = true → t.is_active = false := by
  intro t ht
  rcases List.mem_map.mp ht with ⟨x, hx, rfl⟩
  exact hf x (h x hx)

theorem doUndoOne_sel (t : Task) : (doUndoOne t).is_selected = t.is_selected := by
  by_cases hs : t.is_selected <;> by_cases hd : t.is_done <;>
    by_cases ha : t.is_active <;> simp [doUndoOne, Task.toggle_active, hs, hd, ha]

theorem doUndoOne_active_le (t : Task) :
    (doUndoOne t).is_active = true → t.is_active = true := by
  by_cases hs : t.is_selected <;> by_cases hd : t.is_done <;>
    by_cases ha : t.is_active <;> simp [doUndoOne, Task.toggle_active, hs, hd, ha]

theorem doUndoOne_D (t : Task) (h : t.is_done = true → t.is_active = false) :
    (doUndoOne t).is_done = true → (doUndoOne t).is_active = false := by
  by_cases hs : t.is_selected <;> by_cases hd : t.is_done <;>
    by_cases ha : t.is_active <;>
    simp [doUndoOne, Task.toggle_active, hs, hd, ha] <;> simp [hd, ha] at h

theorem inv_do_undo_task (a : App) (h : AppInv a) : AppInv a.do_undo_task := by
  obtain ⟨h1, h2, h3, h4, h5, h6⟩ := h
  unfold App.do_undo_task
  refine ⟨?_, h2, ?_, ?_, h5, h6⟩
  · show countSel (a.tasks.map doUndoOne) ≤ 1
    rw [countSel_map doUndoOne doUndoOne_sel]
    exact h1
  · show countActive (a.tasks.map doUndoOne) ≤ 1
    calc countActive (a.tasks.map doUndoOne)
        = a.tasks.countP ((fun t => t.is_active) ∘ doUndoOne) := by
          rw [countActive, List.countP_map]
      _ ≤ a.tasks.countP (fun t => t.is_active) :=
          List.countP_mono_left (fun x _ hx => doUndoOne_active_le x hx)
      _ ≤ 1 := h3
  · show ∀ t ∈ a.tasks.map doUndoOne, t.is_done = true → t.is_active = false
    exact forall_D_map doUndoOne doUndoOne_D a.tasks h4

theorem activateOne_sel (t : Task) : (activateOne t).is_selected = t.is_selected := by
  by_cases hs : t.is_selected <;> by_cases hd : t.is_done <;>
    by_cases ha : t.is_active <;> simp [activateOne, Task.toggle_active, hs, hd, ha]

theorem activateOne_active_imp (t : Task) :
    (activateOne t).is_active = true → t.is_selected = true := by
  by_cases hs : t.is_selected <;> by_cases hd : t.is_done <;>
    by_cases ha : t.is_active <;> simp [activateOne, Task.toggle_active, hs, hd, ha]

theorem activateOne_D (t : Task) :
    (activateOne t).is_done = true → (activateOne t).is_active = false := by
  by_cases hs : t.is_selected <;> by_cases hd : t.is_done <;>
    by_cases ha : t.is_active <;> simp [activateOne, Task.toggle_active, hs, hd, ha]

theorem inv_activate_task (a : App) (h : AppInv a) : AppInv a.activate_task := by
  obtain ⟨h1, h2, h3, h4, h5, h6⟩ := h
  unfold App.activate_task
  refine ⟨?_, h2, ?_, ?_, h5, h6⟩
  · show countSel (a.tasks.map activateOne) ≤ 1
    rw [countSel_map activateOne activateOne_sel]
    exact h1
  · show countActive (a.tasks.map activateOne) ≤ 1
    calc countActive (a.tasks.map activateOne)
        = a.tasks.countP ((fun t => t.is_active) ∘ activateOne) := by
          rw [countActive, List.countP_map]
      _ ≤ a.tasks.countP (fun t => t.is_selected) :=
          List.countP_mono_left (fun x _ hx => activateOne_active_imp x hx)
      _ ≤ 1 := h1
  · show ∀ t ∈ a.tasks.map activateOne, t.is_done = true → t.is_active = false
    exact forall_D_map activateOne (fun t _ => activateOne_D t) a.tasks h4

theorem countSel_clear (l : List Task) :
    countSel (l.map (fun t => t.setSel false)) = 0 := by
  rw [countSel, List.countP_map]
  exact List.countP_eq_zero.mpr (fun x _ => by simp [Task.setSel])

theorem inv_add_task (a : App) (now : Nat) (h : AppInv a) : AppInv (a.add_task now) := by
  obtain ⟨h1, h2, h3, h4, h5, h6⟩ := h
  unfold App.add_task
  apply inv_enter_edit
  refine ⟨?_, h2, ?_, ?_, h5, h6⟩
  · show countSel (a.tasks.map (fun t => t.setSel false) ++ [_]) ≤ 1
    rw [countSel, List.countP_append]
    have := countSel_clear a.tasks
    rw [countSel] at this
    rw [this]
    simp
  · show countActive (a.tasks.map (fun t => t.setSel false) ++ [_]) ≤ 1
    rw [countActive, List.countP_append]
    have := countActive_map (fun t => t.setSel false) (fun t => rfl) a.tasks
    rw [countActive, countActive] at this
    rw [this]
    simpa using h3
  · intro t ht
    rcases List.mem_append.mp ht with hm | hm
    · exact forall_D_map (fun t => t.setSel false) (fun t hD => hD) a.tasks h4 t hm
    · intro hd
      simp at hm
      rw [hm] at hd
      exact absurd hd (by simp)

theorem inv_enter_display (a : App) (h : AppInv a) : AppInv a.enter_display := by
  obtain ⟨h1, h2, h3, h4, h5, h6⟩ := h
  have hcommit : ∀ l : List Task,
      countSel (l.map (fun t => if t.is_selected then commitField a t else t)) = countSel l ∧
      countActive (l.map (fun t => if t.is_selected then commitField a t else t))
        = countActive l ∧
      ((∀ t ∈ l, t.is_done = true → t.is_active = false) →
        ∀ t ∈ l.map (fun t => if t.is_selected then commitField a t else t),
          t.is_done = true → t.is_active = false) := by
    intro l
    have hsel : ∀ t : Task,
        ((if t.is_selected then commitField a t else t).is_selected) = t.is_selected := by
      intro t
      by_cases hs : t.is_selected <;> cases hf : a.edit_field <;>
        simp [commitField, hs, hf]
    have hact : ∀ t : Task,
        ((if t.is_selected then commitField a t else t).is_active) = t.is_active := by
      intro t
      by_cases hs : t.is_selected <;> cases hf : a.edit_field <;>
        simp [commitField, hs, hf]
    have hdone : ∀ t : Task,
        ((if t.is_selected then commitField a t else t).is_done) = t.is_done := by
      intro t
      by_cases hs : t.is_selected <;> cases hf : a.edit_field <;>
        simp [commitField, hs, hf]
    refine ⟨countSel_map _ hsel l, countActive_map _ hact l, forall_D_map _ ?_ l⟩
    intro t hD h1x
    rw [hdone t] at h1x
    rw [hact t]
    exact hD h1x
  unfold App.enter_display
  set ts := if a.state = AppState.EditTask then
      a.tasks.map (fun t => if t.is_selected then commitField a t else t)
    else a.tasks with hts
  have hsel2 : countSel ts = countSel a.tasks := by
    rw [hts]
    split
    · exact (hcommit a.tasks).1
    · rfl
  have hact2 : countActive ts = countActive a.tasks := by
    rw [hts]
    split
    · exact (hcommit a.tasks).2.1
    · rfl
  have hD2 : ∀ t ∈ ts, t.is_done = true → t.is_active = false := by
    rw [hts]
    split
    · exact (hcommit a.tasks).2.2 h4
    · exact h4
  refine ⟨?_, h2, ?_, ?_, h5, h6⟩
  · show countSel (if _ ∧ ts ≠ [] then selFirst ts else ts) ≤ 1
    split
    · rename_i hcond
      have hz : countSel ts = 0 := by
        rw [hsel2, countSel]
        refine List.countP_eq_zero.mpr ?_
        have := hcond.1
        simp only [Bool.not_eq_true'] at this
        exact fun x hx => by simp [List.any_eq_false.mp this x hx]
      rw [countSel_selFirst_of_zero ts hz hcond.2]
    · omega
  · show countActive (if _ ∧ ts ≠ [] then selFirst ts else ts) ≤ 1
    split
    · rw [countActive_selFirst, hact2]; exact h3
    · rw [hact2]; exact h3
  · show ∀ t ∈ (if _ ∧ ts ≠ [] then selFirst ts else ts), t.is_done = true → t.is_active = false
    split
    · exact forall_selFirst _ (fun t hP => hP) ts hD2
    · exact hD2

theorem changeFieldStep_flags (es : List Char × Char × List Char × Nat × EditField)
    (t : Task) :
    ((changeFieldStep es t).1.is_selected = t.is_selected ∧
     (changeFieldStep es t).1.is_active = t.is_active ∧
     (changeFieldStep es t).1.is_done = t.is_done) := by
  obtain ⟨f, b, s, cp, ef⟩ := es
  cases ef <;> simp [changeFieldStep]

theorem changeFieldGo_inv (es : List Char × Char × List Char × Nat × EditField) :
    ∀ (l : List Task),
    countSel (changeFieldGo es l).1 = countSel l ∧
    countActive (changeFieldGo es l).1 = countActive l ∧
    ((∀ t ∈ l, t.is_done = true → t.is_active = false) →
      ∀ t ∈ (changeFieldGo es l).1, t.is_done = true → t.is_active = false) := by
  intro l
  induction l generalizing es with
  | nil => simp [changeFieldGo]
  | cons t rest ih =>
    by_cases hs : t.is_selected
    · have hst := changeFieldStep_flags es t
      rcases ih (changeFieldStep es t).2 with ⟨ih1, ih2, ih3⟩
      refine ⟨?_, ?_, ?_⟩
      · simp [changeFieldGo, hs, countSel, List.countP_cons, hst.1]
        rw [countSel] at ih1
        rw [ih1]
        rfl
      · simp [changeFieldGo, hs, countActive, List.countP_cons, hst.2.1]
        rw [countActive] at ih2
        rw [ih2]
        rfl
      · intro hD x hx
        simp only [changeFieldGo, hs, if_pos] at hx
        rcases List.mem_cons.mp hx with h0 | h0
        · subst h0
          rw [hst.2.2, hst.2.1]
          exact hD t (by simp)
        · exact ih3 (fun y hy => hD y (by simp [hy])) x h0
    · rcases ih es with ⟨ih1, ih2, ih3⟩
      refine ⟨?_, ?_, ?_⟩
      · simp [changeFieldGo, hs, countSel, List.countP_cons]
        rw [countSel] at ih1
        rw [ih1]
        rfl
      · simp [changeFieldGo, hs, countActive, List.countP_cons]
        rw [countActive] at ih2
        rw [ih2]
        rfl
      · intro hD x hx
        simp [changeFieldGo, hs] at hx
        rcases hx with h0 | h0
        · subst h0
          exact hD x (by simp)
        · exact ih3 (fun y hy => hD y (by simp [hy])) x h0

theorem inv_change_field (a : App) (h : AppInv a) : AppInv a.change_field := by
  obtain ⟨h1, h2, h3, h4, h5, h6⟩ := h
  rcases changeFieldGo_inv
    (a.first_string, a.blink_char, a.second_string, a.cursor_pos, a.edit_field)
    a.tasks with ⟨hc1, hc2, hc3⟩
  unfold App.change_field
  exact ⟨by rw [show countSel _ = countSel a.tasks from hc1]; exact h1, h2,
    by rw [show countActive _ = countActive a.tasks from hc2]; exact h3,
    hc3 h4, h5, h6⟩

theorem countSel_cons (a : Task) (l : List Task) :
    countSel (a :: l) = countSel l + (if a.is_selected then 1 else 0) :=
  List.countP_cons _ a l

theorem countActive_cons (a : Task) (l : List Task) :
    countActive (a :: l) = countActive l + (if a.is_active then 1 else 0) :=
  List.countP_cons _ a l

theorem mdGo_countP (p : Task → Bool) : ∀ (l : List Task), (mdGo l).countP p = l.countP p := by
  intro l
  induction l with
  | nil => rfl
  | cons a rest ih =>
    cases rest with
    | nil => rfl
    | cons b rest2 =>
      by_cases ha : a.is_selected
      · simp [mdGo, ha, List.countP_cons]
        omega
      · simp only [mdGo, ha, Bool.false_eq_true, if_false]
        simp only [List.countP_cons, ih]

theorem mdGo_mem : ∀ (l : List Task), ∀ t ∈ mdGo l, t ∈ l := by
  intro l
  induction l with
  | nil => simp [mdGo]
  | cons a rest ih =>
    cases rest with
    | nil => simp [mdGo]
    | cons b rest2 =>
      intro t ht
      by_cases ha : a.is_selected
      · simp only [mdGo, ha, if_pos] at ht
        rcases List.mem_cons.mp ht with h0 | h0
        · simp [h0]
        · rcases List.mem_cons.mp h0 with h1 | h1
          · simp [h1]
          · simp [h1]
      · simp only [mdGo, ha, Bool.false_eq_true, if_false] at ht
        rcases List.mem_cons.mp ht with h0 | h0
        · simp [h0]
        · have := ih t h0
          simp [List.mem_cons.mp this]

theorem inv_move_task_down (a : App) (h : AppInv a) : AppInv a.move_task_down := by
  obtain ⟨h1, h2, h3, h4, h5, h6⟩ := h
  unfold App.move_task_down
  split
  · refine ⟨?_, h2, ?_, ?_, h5, h6⟩
    · show countSel (mdGo a.tasks) ≤ 1
      rw [countSel, mdGo_countP]
      exact h1
    · show countActive (mdGo a.tasks) ≤ 1
      rw [countActive, mdGo_countP]
      exact h3
    · intro t ht
      exact h4 t (mdGo_mem a.tasks t ht)
  · exact ⟨h1, h2, h3, h4, h5, h6⟩

theorem muGo_countP (p : Task → Bool) : ∀ (i : Nat) (l : List Task),
    (muGo l i).countP p = l.countP p := by
  intro i
  induction i with
  | zero => intro l; rfl
  | succ j ihj =>
    intro l
    by_cases hsel : (l.getD (j + 1) defTask).is_selected
    · have hin : j + 1 < l.length := by
        by_contra hge
        rw [List.getD_eq_default l defTask (by omega)] at hsel
        simp [defTask] at hsel
      have hj : j < l.length := by omega
      have e1 := countP_set_balance p l (j + 1) (l.getD j defTask) hin
      have hlen1 : (l.set (j + 1) (l.getD j defTask)).length = l.length :=
        List.length_set l (j + 1) (l.getD j defTask)
      have e2 := countP_set_balance p (l.set (j + 1) (l.getD j defTask)) j
        (l.getD (j + 1) defTask) (by omega)
      have hgd : (l.set (j + 1) (l.getD j defTask)).getD j defTask = l.getD j defTask :=
        getD_set_ne defTask l (j + 1) j _ (by omega)
      rw [hgd] at e2
      simp only [muGo, hsel, if_pos]
      set A := (if p (l.getD j defTask) = true then 1 else 0) with hA
      set B := (if p (l.getD (j + 1) defTask) = true then 1 else 0) with hB
      omega
    · simp only [muGo, hsel, Bool.false_eq_true, if_false]
      exact ihj l

theorem muGo_mem : ∀ (i : Nat) (l : List Task), ∀ t ∈ muGo l i, t ∈ l := by
  intro i
  induction i with
  | zero => intro l t ht; exact ht
  | succ j ihj =>
    intro l t ht
    by_cases hsel : (l.getD (j + 1) defTask).is_selected
    · have hin : j + 1 < l.length := by
        by_contra hge
        rw [List.getD_eq_default l defTask (by omega)] at hsel
        simp [defTask] at hsel
      have hj : j < l.length := by omega
      simp only [muGo, hsel, if_pos] at ht
      rcases List.mem_or_eq_of_mem_set ht with h0 | h0
      · rcases List.mem_or_eq_of_mem_set h0 with h1 | h1
        · exact h1
        · rw [h1, List.getD_eq_getElem l defTask hj]
          exact List.getElem_mem hj
      · rw [h0, List.getD_eq_getElem l defTask hin]
        exact List.getElem_mem hin
    · simp only [muGo, hsel, Bool.false_eq_true, if_false] at ht
      exact ihj l t ht

theorem inv_move_task_up (a : App) (h : AppInv a) : AppInv a.move_task_up := by
  obtain ⟨h1, h2, h3, h4, h5, h6⟩ := h
  unfold App.move_task_up
  split
  · refine ⟨?_, h2, ?_, ?_, h5, h6⟩
    · show countSel (muGo a.tasks (a.tasks.length - 1)) ≤ 1
      rw [countSel, muGo_countP]
      exact h1
    · show countActive (muGo a.tasks (a.tasks.length - 1)) ≤ 1
      rw [countActive, muGo_countP]
      exact h3
    · intro t ht
      exact h4 t (muGo_mem (a.tasks.length - 1) a.tasks t ht)
  · exact ⟨h1, h2, h3, h4, h5, h6⟩

/-! ### The selection-move scans -/

theorem incSelGo_len : ∀ (l : List Task), (incSelGo l).1.length = l.length := by
  intro l
  induction l with
  | nil => rfl
  | cons a rest ih =>
    cases rest with
    | nil => rfl
    | cons b rest2 =>
      by_cases ha : a.is_selected
      · simp [incSelGo, ha]
      · simp only [incSelGo, ha, Bool.false_eq_true, if_neg, List.length_cons]
        simp only [List.length_cons] at ih
        simp [ih]

theorem incSelGo_nosel : ∀ (l : List Task), countSel l = 0 → (incSelGo l).1 = l := by
  intro l
  induction l with
  | nil => intro _; rfl
  | cons a rest ih =>
    intro h
    rw [countSel_cons] at h
    have ha : a.is_selected = false := by
      by_cases hx : a.is_selected
      · simp [hx] at h
      · simpa using hx
    have hrest : countSel rest = 0 := by omega
    cases rest with
    | nil => rfl
    | cons b rest2 =>
      simp [incSelGo, ha, ih hrest]

theorem incSelGo_one : ∀ (l : List Task), countSel l = 1 →
    countSel (incSelGo l).1 = 1 := by
  intro l
  induction l with
  | nil => intro h; simp [countSel] at h
  | cons a rest ih =>
    intro h
    cases rest with
    | nil => exact h
    | cons b rest2 =>
      by_cases ha : a.is_selected
      · have hrest : countSel (b :: rest2) = 0 := by
          rw [countSel_cons, ha] at h
          simp at h
          omega
        rw [countSel_cons] at hrest
        simp only [incSelGo, ha, if_pos]
        rw [countSel_cons, countSel_cons]
        simp [Task.setSel]
        omega
      · have hrest : countSel (b :: rest2) = 1 := by
          rw [countSel_cons] at h
          simp [ha] at h
          exact h
        have hx := ih hrest
        simp only [incSelGo, ha, Bool.false_eq_true, if_false]
        rw [countSel_cons, hx]
        simp [ha]

theorem incSelGo_count (l : List Task) (h : countSel l ≤ 1) :
    countSel (incSelGo l).1 = countSel l := by
  rcases countSel_le_one_cases l h with h0 | h0
  · rw [h0, incSelGo_nosel l h0, h0]
  · rw [h0, incSelGo_one l h0]

theorem incSelGo_active : ∀ (l : List Task),
    countActive (incSelGo l).1 = countActive l := by
  intro l
  induction l with
  | nil => rfl
  | cons a rest ih =>
    cases rest with
    | nil => rfl
    | cons b rest2 =>
      by_cases ha : a.is_selected
      · simp [incSelGo, ha, countActive, List.countP_cons, Task.setSel]
      · simp only [incSelGo, ha, Bool.false_eq_true, if_false]
        simp only [countActive_cons, ih]

theorem incSelGo_forall (P : Task → Prop) (hP : ∀ (t : Task) (b : Bool), P t → P (t.setSel b)) :
    ∀ (l : List Task), (∀ t ∈ l, P t) → ∀ t ∈ (incSelGo l).1, P t := by
  intro l
  induction l with
  | nil => simp [incSelGo]
  | cons a rest ih =>
    intro h t ht
    cases rest with
    | nil => exact h t ht
    | cons b rest2 =>
      by_cases ha : a.is_selected
      · simp only [incSelGo, ha, if_pos] at ht
        rcases List.mem_cons.mp ht with h0 | h0
        · exact h0 ▸ hP a false (h a (by simp))
        · rcases List.mem_cons.mp h0 with h1 | h1
          · exact h1 ▸ hP b true (h b (by simp))
          · exact h t (by simp [h1])
      · simp only [incSelGo, ha, Bool.false_eq_true, if_false] at ht
        rcases List.mem_cons.mp ht with h0 | h0
        · exact h0 ▸ h a (by simp)
        · exact ih (fun y hy => h y (by simp [hy])) t h0

theorem decSelGo_nil (i ft : Nat) : decSelGo [] i ft = ([], ft) := by
  simp [decSelGo]

theorem decSelGo_single (x : Task) (i ft : Nat) : decSelGo [x] i ft = ([x], ft) := by
  simp [decSelGo]

theorem decSelGo_len : ∀ (rest : List Task) (x : Task) (i ft : Nat),
    (decSelGo (x :: rest) i ft).1.length = rest.length + 1 := by
  intro rest
  induction rest with
  | nil => intro x i ft; rw [decSelGo_single]; rfl
  | cons b rest2 ih =>
    intro x i ft
    by_cases hb : b.is_selected
    · simp only [decSelGo, hb, if_pos, List.length_cons]
      rw [ih]
    · simp only [decSelGo, hb, Bool.false_eq_true, if_false, List.length_cons]
      rw [ih]

theorem decSelGo_nosel : ∀ (rest : List Task) (x : Task) (i ft : Nat),
    countSel (x :: rest) = 0 → (decSelGo (x :: rest) i ft).1 = x :: rest := by
  intro rest
  induction rest with
  | nil => intro x i ft _; rw [decSelGo_single]
  | cons b rest2 ih =>
    intro x i ft h
    rw [countSel_cons, countSel_cons] at h
    have hb : b.is_selected = false := by
      by_cases hx : b.is_selected
      · simp [hx] at h
      · simpa using hx
    have htail : countSel (b :: rest2) = 0 := by
      rw [countSel_cons, hb]
      simp
      omega
    simp only [decSelGo, hb, Bool.false_eq_true, if_false]
    rw [ih b (i + 1) ft htail]

theorem decSelGo_one : ∀ (rest : List Task) (x : Task) (i ft : Nat),
    countSel (x :: rest) = 1 → countSel (decSelGo (x :: rest) i ft).1 = 1 := by
  intro rest
  induction rest with
  | nil => intro x i ft h; rw [decSelGo_single]; exact h
  | cons b rest2 ih =>
    intro x i ft h
    by_cases hb : b.is_selected
    · have hx0 : x.is_selected = false ∧ countSel rest2 = 0 := by
        rw [countSel_cons, countSel_cons, hb] at h
        constructor
        · by_cases hx : x.is_selected
          · simp [hx] at h
          · simpa using hx
        · simp at h
          omega
      have htail0 : countSel (b.setSel false :: rest2) = 0 := by
        rw [countSel_cons]
        simp [Task.setSel, hx0.2]
      simp only [decSelGo, hb, if_pos]
      rw [decSelGo_nosel rest2 (b.setSel false) (i + 1) _ htail0]
      rw [countSel_cons, countSel_cons]
      simp [Task.setSel, hx0.2]
    · have hbf : b.is_selected = false := by simpa using hb
      simp only [decSelGo, hb, Bool.false_eq_true, if_false]
      by_cases hx : x.is_selected
      · have htail0 : countSel (b :: rest2) = 0 := by
          rw [countSel_cons, hx] at h
          simp at h
          omega
        rw [decSelGo_nosel rest2 b (i + 1) ft htail0]
        exact h
      · have hxf : x.is_selected = false := by simpa using hx
        have htail : countSel (b :: rest2) = 1 := by
          rw [countSel_cons, hxf] at h
          simpa using h
        rw [countSel_cons, ih b (i + 1) ft htail, hxf]
        simp

theorem decSelGo_count (l : List Task) (i ft : Nat) (h : countSel l ≤ 1) :
    countSel (decSelGo l i ft).1 = countSel l := by
  cases l with
  | nil => rw [decSelGo_nil]
  | cons x rest =>
    rcases countSel_le_one_cases _ h with h0 | h0
    · rw [decSelGo_nosel rest x i ft h0, h0]
    · rw [decSelGo_one rest x i ft h0, h0]

theorem decSelGo_active : ∀ (rest : List Task) (x : Task) (i ft : Nat),
    countActive (decSelGo (x :: rest) i ft).1 = countActive (x :: rest) := by
  intro rest
  induction rest with
  | nil => intro x i ft; rw [decSelGo_single]
  | cons b rest2 ih =>
    intro x i ft
    by_cases hb : b.is_selected
    · simp only [decSelGo, hb, if_pos]
      rw [countActive_cons, ih, countActive_cons, countActive_cons, countActive_cons]
      simp [Task.setSel]
    · simp only [decSelGo, hb, Bool.false_eq_true, if_false]
      rw [countActive_cons, ih, countActive_cons, countActive_cons, countActive_cons]

theorem countActive_decSelGo (l : List Task) (i ft : Nat) :
    countActive (decSelGo l i ft).1 = countActive l := by
  cases l with
  | nil => rw [decSelGo_nil]
  | cons x rest => exact decSelGo_active rest x i ft

theorem decSelGo_forall (P : Task → Prop) (hP : ∀ (t : Task) (b : Bool), P t → P (t.setSel b)) :
    ∀ (rest : List Task) (x : Task) (i ft : Nat),
    (∀ t ∈ x :: rest, P t) → ∀ t ∈ (decSelGo (x :: rest) i ft).1, P t := by
  intro rest
  induction rest with
  | nil => intro x i ft h; rw [decSelGo_single]; exact h
  | cons b rest2 ih =>
    intro x i ft h t ht
    by_cases hb : b.is_selected
    · simp only [decSelGo, hb, if_pos] at ht
      rcases List.mem_cons.mp ht with h0 | h0
      · exact h0 ▸ hP x true (h x (by simp))
      · refine ih (b.setSel false) (i + 1) _ ?_ t h0
        intro y hy
        rcases List.mem_cons.mp hy with h1 | h1
        · exact h1 ▸ hP b false (h b (by simp))
        · exact h y (by simp [h1])
    · simp only [decSelGo, hb, Bool.false_eq_true, if_false] at ht
      rcases List.mem_cons.mp ht with h0 | h0
      · exact h0 ▸ h x (by simp)
      · exact ih b (i + 1) ft (fun y hy => h y (by simp [List.mem_cons.mp hy])) t h0

theorem forall_decSelGo (P : Task → Prop) (hP : ∀ (t : Task) (b : Bool), P t → P (t.setSel b))
    (l : List Task) (i ft : Nat) (h : ∀ t ∈ l, P t) :
    ∀ t ∈ (decSelGo l i ft).1, P t := by
  cases l with
  | nil => rw [decSelGo_nil]; simp
  | cons x rest => exact decSelGo_forall P hP rest x i ft h

theorem length_decSelGo (l : List Task) (i ft : Nat) :
    (decSelGo l i ft).1.length = l.length := by
  cases l with
  | nil => rw [decSelGo_nil]
  | cons x rest => rw [decSelGo_len]; rfl

/-- Facts about the current batch, extracted from the invariant. -/
theorem currBatch_mem (a : App) (hlen : 0 < a.archive.length)
    (h6 : a.archive = [] ∨ a.curr_archive < a.archive.length) :
    a.currBatch ∈ a.archive ∧ a.curr_archive < a.archive.length := by
  have hcur : a.curr_archive < a.archive.length := by
    rcases h6 with h0 | h0
    · rw [h0] at hlen; simp at hlen
    · exact h0
  constructor
  · rw [App.currBatch, List.getD_eq_getElem a.archive defArchiveItem hcur]
    exact List.getElem_mem hcur
  · exact hcur

theorem inv_inc_sel_task (a : App) (h : AppInv a) : AppInv a.inc_sel_task := by
  obtain ⟨h1, h2, h3, h4, h5, h6⟩ := h
  unfold App.inc_sel_task
  split
  · -- Display
    split
    · -- tasks non-empty
      have hA : countSel (incSelGo a.tasks).1 ≤ 1 := by
        rw [incSelGo_count a.tasks h1]; exact h1
      have hC : countActive (incSelGo a.tasks).1 ≤ 1 := by
        rw [incSelGo_active]; exact h3
      have hD : ∀ t ∈ (incSelGo a.tasks).1, t.is_done = true → t.is_active = false :=
        incSelGo_forall _ (fun t b hD => hD) a.tasks h4
      split
      · exact ⟨hA, h2, hC, hD, h5, h6⟩
      · exact ⟨hA, h2, hC, hD, h5, h6⟩
    · exact ⟨h1, h2, h3, h4, h5, h6⟩
  · -- Archived
    split
    · rename_i hlen
      split
      · rename_i hbne
        obtain ⟨hbmem, hcur⟩ := currBatch_mem a hlen h6
        have hbsel : countSel a.currBatch.tasks = 1 :=
          h2 _ hbmem (by intro h0; rw [h0] at hbne; simp at hbne)
        have hB : ∀ b2 ∈ a.archive.set a.curr_archive
            { a.currBatch with tasks := (incSelGo a.currBatch.tasks).1 },
            b2.tasks ≠ [] → countSel b2.tasks = 1 := by
          intro b2 hb2
          rcases List.mem_or_eq_of_mem_set hb2 with h0 | h0
          · exact h2 b2 h0
          · intro _
            rw [h0]
            show countSel (incSelGo a.currBatch.tasks).1 = 1
            rw [incSelGo_count _ (by omega)]
            exact hbsel
        have hE : ∀ b2 ∈ a.archive.set a.curr_archive
            { a.currBatch with tasks := (incSelGo a.currBatch.tasks).1 },
            ∀ t ∈ b2.tasks, t.is_active = false := by
          intro b2 hb2
          rcases List.mem_or_eq_of_mem_set hb2 with h0 | h0
          · exact h5 b2 h0
          · rw [h0]
            show ∀ t ∈ (incSelGo a.currBatch.tasks).1, t.is_active = false
            exact incSelGo_forall _ (fun t b hP => hP) _ (h5 _ hbmem)
        have hF : a.archive.set a.curr_archive
            { a.currBatch with tasks := (incSelGo a.currBatch.tasks).1 } = [] ∨
            a.curr_archive < (a.archive.set a.curr_archive
              { a.currBatch with tasks := (incSelGo a.currBatch.tasks).1 }).length := by
          right
          rw [List.length_set]
          exact hcur
        split
        · exact ⟨h1, hB, h3, h4, hE, hF⟩
        · exact ⟨h1, hB, h3, h4, hE, hF⟩
      · exact ⟨h1, h2, h3, h4, h5, h6⟩
    · exact ⟨h1, h2, h3, h4, h5, h6⟩
  · exact ⟨h1, h2, h3, h4, h5, h6⟩

theorem inv_dec_sel_task (a : App) (h : AppInv a) : AppInv a.dec_sel_task := by
  obtain ⟨h1, h2, h3, h4, h5, h6⟩ := h
  unfold App.dec_sel_task
  split
  · -- Display
    refine ⟨?_, h2, ?_, ?_, h5, h6⟩
    · show countSel (decSelGo a.tasks 0 a.first_task).1 ≤ 1
      rw [decSelGo_count a.tasks 0 a.first_task h1]
      exact h1
    · show countActive (decSelGo a.tasks 0 a.first_task).1 ≤ 1
      rw [countActive_decSelGo]
      exact h3
    · exact forall_decSelGo _ (fun t b hD => hD) a.tasks 0 a.first_task h4
  · -- Archived
    split
    · rename_i hlen
      obtain ⟨hbmem, hcur⟩ := currBatch_mem a hlen h6
      refine ⟨h1, ?_, h3, h4, ?_, ?_⟩
      · intro b2 hb2
        rcases List.mem_or_eq_of_mem_set hb2 with h0 | h0
        · exact h2 b2 h0
        · intro hne
          rw [h0] at hne ⊢
          show countSel (decSelGo a.currBatch.tasks 0 a.first_task).1 = 1
          have hne2 : a.currBatch.tasks ≠ [] := by
            intro h00
            apply hne
            show (decSelGo a.currBatch.tasks 0 a.first_task).1 = []
            rw [h00, decSelGo_nil]
          have hbsel : countSel a.currBatch.tasks = 1 := h2 _ hbmem hne2
          rw [decSelGo_count _ _ _ (by omega)]
          exact hbsel
      · intro b2 hb2
        rcases List.mem_or_eq_of_mem_set hb2 with h0 | h0
        · exact h5 b2 h0
        · rw [h0]
          show ∀ t ∈ (decSelGo a.currBatch.tasks 0 a.first_task).1, t.is_active = false
          exact forall_decSelGo _ (fun t b hP => hP) _ 0 a.first_task (h5 _ hbmem)
      · right
        rw [List.length_set]
        exact hcur
    · exact ⟨h1, h2, h3, h4, h5, h6⟩
  · exact ⟨h1, h2, h3, h4, h5, h6⟩

/-! ### Re-selection after a removal (`del_task`, `dearchive_task`) -/

theorem length_reselectAt (l : List Task) (i : Nat) :
    (reselectAt l i).length = l.length := by
  unfold reselectAt
  split_ifs <;> simp [List.length_set]

theorem getD_unsel_of_countSel_zero (l : List Task) (h : countSel l = 0) (j : Nat)
    (hj : j < l.length) : (l.getD j defTask).is_selected = false := by
  have hmem : l.getD j defTask ∈ l := by
    rw [List.getD_eq_getElem l defTask hj]
    exact List.getElem_mem hj
  have := List.countP_eq_zero.mp h _ hmem
  simpa using this

theorem setSel_is_selected (t : Task) (b : Bool) : (Task.setSel t b).is_selected = b := rfl

theorem countSel_set_balance (l : List Task) (i : Nat) (x : Task) (h : i < l.length) :
    countSel (l.set i x) + (if (l.getD i defTask).is_selected then 1 else 0)
      = countSel l + (if x.is_selected then 1 else 0) :=
  countP_set_balance (fun t => t.is_selected) l i x h

theorem countActive_set_balance (l : List Task) (i : Nat) (x : Task) (h : i < l.length) :
    countActive (l.set i x) + (if (l.getD i defTask).is_active then 1 else 0)
      = countActive l + (if x.is_active then 1 else 0) :=
  countP_set_balance (fun t => t.is_active) l i x h

theorem countSel_eraseIdx_balance (l : List Task) (i : Nat) (h : i < l.length) :
    countSel (l.eraseIdx i) + (if (l.getD i defTask).is_selected then 1 else 0)
      = countSel l :=
  countP_eraseIdx_balance (fun t => t.is_selected) l i h

theorem countSel_reselectAt_zero (l : List Task) (i : Nat) (h : countSel l = 0)
    (hne : 0 < l.length) (hle : i ≤ l.length) : countSel (reselectAt l i) = 1 := by
  unfold reselectAt
  rw [if_pos hne]
  by_cases hi : i < l.length
  · rw [if_pos hi]
    have hb := countSel_set_balance l i ((l.getD i defTask).setSel true) hi
    rw [getD_unsel_of_countSel_zero l h i hi, setSel_is_selected] at hb
    simp only [Bool.false_eq_true, if_false, if_true] at hb
    omega
  · rw [if_neg hi]
    have hi2 : i - 1 < l.length := by omega
    have hb := countSel_set_balance l (i - 1) ((l.getD (i - 1) defTask).setSel true) hi2
    rw [getD_unsel_of_countSel_zero l h (i - 1) hi2, setSel_is_selected] at hb
    simp only [Bool.false_eq_true, if_false, if_true] at hb
    omega

theorem countActive_reselectAt (l : List Task) (i : Nat) :
    countActive (reselectAt l i) = countActive l := by
  unfold reselectAt
  split_ifs with h0 h1
  · have hb := countActive_set_balance l i ((l.getD i defTask).setSel true) h1
    have hx : (Task.setSel (l.getD i defTask) true).is_active
        = (l.getD i defTask).is_active := rfl
    rw [hx] at hb
    omega
  · by_cases hi2 : i - 1 < l.length
    · have hb := countActive_set_balance l (i - 1) ((l.getD (i - 1) defTask).setSel true) hi2
      have hx : (Task.setSel (l.getD (i - 1) defTask) true).is_active
          = (l.getD (i - 1) defTask).is_active := rfl
      rw [hx] at hb
      omega
    · rw [List.set_eq_of_length_le (by omega)]
  · rfl

theorem forall_reselectAt (P : Task → Prop) (hP : ∀ t, P t → P (t.setSel true))
    (l : List Task) (i : Nat) (hle : i ≤ l.length) (h : ∀ t ∈ l, P t) :
    ∀ t ∈ reselectAt l i, P t := by
  unfold reselectAt
  split_ifs with h0 h1
  · intro t ht
    rcases List.mem_or_eq_of_mem_set ht with hm | hm
    · exact h t hm
    · rw [hm]
      apply hP
      rw [List.getD_eq_getElem l defTask h1]
      exact h _ (List.getElem_mem h1)
  · intro t ht
    rcases List.mem_or_eq_of_mem_set ht with hm | hm
    · exact h t hm
    · rw [hm]
      apply hP
      have hin : i - 1 < l.length := by omega
      rw [List.getD_eq_getElem l defTask hin]
      exact h _ (List.getElem_mem hin)
  · exact h

theorem inv_del_task (a : App) (h : AppInv a) : AppInv a.del_task := by
  obtain ⟨h1, h2, h3, h4, h5, h6⟩ := h
  unfold App.del_task
  split
  · rename_i hfind
    have hselat : (a.tasks.getD (a.tasks.findIdx (fun t => t.is_selected)) defTask).is_selected
        = true := by
      rw [List.getD_eq_getElem a.tasks defTask hfind]
      exact List.findIdx_getElem
    have hbal := countSel_eraseIdx_balance a.tasks
      (a.tasks.findIdx (fun t => t.is_selected)) hfind
    rw [hselat] at hbal
    simp only [if_true] at hbal
    have herase0 : countSel (a.tasks.eraseIdx (a.tasks.findIdx (fun t => t.is_selected))) = 0 := by
      omega
    refine ⟨?_, h2, ?_, ?_, h5, h6⟩
    · show countSel (reselectAt _ _) ≤ 1
      by_cases hlen : 0 < (a.tasks.eraseIdx (a.tasks.findIdx (fun t => t.is_selected))).length
      · rw [countSel_reselectAt_zero _ _ herase0 hlen ?_]
        have := List.length_eraseIdx_of_lt hfind
        omega
      · have hnil : a.tasks.eraseIdx (a.tasks.findIdx (fun t => t.is_selected)) = [] := by
          cases hx : a.tasks.eraseIdx (a.tasks.findIdx (fun t => t.is_selected)) with
          | nil => rfl
          | cons y ys => rw [hx] at hlen; simp at hlen
        rw [hnil]
        unfold reselectAt
        simp [countSel]
    · show countActive (reselectAt _ _) ≤ 1
      rw [countActive_reselectAt]
      calc countActive (a.tasks.eraseIdx (a.tasks.findIdx (fun t => t.is_selected)))
          ≤ countActive a.tasks :=
            List.Sublist.countP_le _ (List.eraseIdx_sublist _ _)
        _ ≤ 1 := h3
    · refine forall_reselectAt _ (fun t hD => hD) _ _ ?_ ?_
      · have := List.length_eraseIdx_of_lt hfind
        omega
      · intro t ht
        exact h4 t (List.mem_of_mem_eraseIdx ht)
  · exact ⟨h1, h2, h3, h4, h5, h6⟩

/-! ### The archive partition -/

theorem archGo_arch_unsel : ∀ (l : List Task), ∀ t ∈ (archGo l).2.1, t.is_selected = false := by
  intro l
  induction l with
  | nil => simp [archGo]
  | cons t rest ih =>
    intro x hx
    by_cases hd : t.is_done
    · simp only [archGo, hd, if_pos] at hx
      rcases List.mem_cons.mp hx with h0 | h0
      · rw [h0]
        by_cases hs : t.is_selected <;> simp [hs, Task.setSel]
      · exact ih x h0
    · simp only [archGo, hd, Bool.false_eq_true, if_false] at hx
      exact ih x hx

theorem archGo_rem_mem : ∀ (l : List Task), ∀ t ∈ (archGo l).1, t ∈ l := by
  intro l
  induction l with
  | nil => simp [archGo]
  | cons t rest ih =>
    intro x hx
    by_cases hd : t.is_done
    · simp only [archGo, hd, if_pos] at hx
      exact List.mem_cons_of_mem t (ih x hx)
    · simp only [archGo, hd, Bool.false_eq_true, if_false] at hx
      rcases List.mem_cons.mp hx with h0 | h0
      · simp [h0]
      · exact List.mem_cons_of_mem t (ih x h0)

theorem archGo_rem_sel_le : ∀ (l : List Task), countSel (archGo l).1 ≤ countSel l := by
  intro l
  induction l with
  | nil => simp [archGo]
  | cons t rest ih =>
    by_cases hd : t.is_done
    · simp only [archGo, hd, if_pos]
      rw [countSel_cons]
      omega
    · simp only [archGo, hd, Bool.false_eq_true, if_false]
      rw [countSel_cons, countSel_cons]
      omega

theorem archGo_rem_active_le : ∀ (l : List Task), countActive (archGo l).1 ≤ countActive l := by
  intro l
  induction l with
  | nil => simp [archGo]
  | cons t rest ih =>
    by_cases hd : t.is_done
    · simp only [archGo, hd, if_pos]
      rw [countActive_cons]
      omega
    · simp only [archGo, hd, Bool.false_eq_true, if_false]
      rw [countActive_cons, countActive_cons]
      omega

theorem archGo_reset_imp : ∀ (l : List Task), (archGo l).2.2 = true → 1 ≤ countSel l := by
  intro l
  induction l with
  | nil => simp [archGo]
  | cons t rest ih =>
    intro hr
    by_cases hd : t.is_done
    · simp only [archGo, hd, if_pos, Bool.or_eq_true] at hr
      rw [countSel_cons]
      rcases hr with h0 | h0
      · simp [h0]
      · have := ih h0
        omega
    · simp only [archGo, hd, Bool.false_eq_true, if_false] at hr
      rw [countSel_cons]
      have := ih hr
      omega

theorem archGo_reset_false : ∀ (l : List Task), (archGo l).2.2 = false →
    countSel (archGo l).1 = countSel l := by
  intro l
  induction l with
  | nil => intro _; simp [archGo, countSel]
  | cons t rest ih =>
    intro hr
    by_cases hd : t.is_done
    · simp only [archGo, hd, if_pos, Bool.or_eq_false_iff] at hr ⊢
      rw [countSel_cons, ih hr.2, hr.1]
      simp
    · simp only [archGo, hd, Bool.false_eq_true, if_false] at hr ⊢
      rw [countSel_cons, countSel_cons, ih hr]

theorem archGo_reset_true : ∀ (l : List Task), countSel l ≤ 1 → (archGo l).2.2 = true →
    countSel (archGo l).1 = 0 := by
  intro l
  induction l with
  | nil => simp [archGo]
  | cons t rest ih =>
    intro hle hr
    by_cases hd : t.is_done
    · simp only [archGo, hd, if_pos] at hr ⊢
      have hrest_le : countSel rest ≤ 1 := by
        rw [countSel_cons] at hle
        omega
      by_cases hrr : (archGo rest).2.2 = true
      · exact ih hrest_le hrr
      · have hsel : t.is_selected = true := by
          simp only [Bool.or_eq_true] at hr
          rcases hr with h0 | h0
          · exact h0
          · exact absurd h0 hrr
        have hrest0 : countSel rest = 0 := by
          rw [countSel_cons, hsel] at hle
          simp at hle
          omega
        rw [archGo_reset_false rest (by simpa using hrr)]
        exact hrest0
    · simp only [archGo, hd, Bool.false_eq_true, if_false] at hr ⊢
      have hrest1 : 1 ≤ countSel rest := archGo_reset_imp rest hr
      have ht0 : t.is_selected = false := by
        rw [countSel_cons] at hle
        by_cases hx : t.is_selected
        · simp [hx] at hle; omega
        · simpa using hx
      have hrest_le : countSel rest ≤ 1 := by
        rw [countSel_cons] at hle
        omega
      rw [countSel_cons, ih hrest_le hr, ht0]
      simp

theorem archGo_arch_inactive : ∀ (l : List Task),
    (∀ t ∈ l, t.is_done = true → t.is_active = false) →
    ∀ t ∈ (archGo l).2.1, t.is_active = false := by
  intro l
  induction l with
  | nil => simp [archGo]
  | cons t rest ih =>
    intro hD x hx
    by_cases hd : t.is_done
    · simp only [archGo, hd, if_pos] at hx
      rcases List.mem_cons.mp hx with h0 | h0
      · have hta : t.is_active = false := hD t (by simp) hd
        rw [h0]
        by_cases hs : t.is_selected <;> simp [hs, Task.setSel, hta]
      · exact ih (fun y hy => hD y (by simp [hy])) x h0
    · simp only [archGo, hd, Bool.false_eq_true, if_false] at hx
      exact ih (fun y hy => hD y (by simp [hy])) x hx

theorem countSel_archRem (l : List Task) (h : countSel l ≤ 1) :
    countSel (archRem l) ≤ 1 := by
  unfold archRem
  split
  · rename_i hc
    rw [countSel_selFirst_of_zero _ (archGo_reset_true l h hc.1) ?_]
    intro h0
    rw [h0] at hc
    simp at hc
  · calc countSel (archGo l).1 ≤ countSel l := archGo_rem_sel_le l
      _ ≤ 1 := h

theorem countActive_archRem (l : List Task) :
    countActive (archRem l) ≤ countActive l := by
  unfold archRem
  split
  · rw [countActive_selFirst]
    exact archGo_rem_active_le l
  · exact archGo_rem_active_le l

theorem forall_D_archRem (l : List Task)
    (h : ∀ t ∈ l, t.is_done = true → t.is_active = false) :
    ∀ t ∈ archRem l, t.is_done = true → t.is_active = false := by
  unfold archRem
  have hbase : ∀ t ∈ (archGo l).1, t.is_done = true → t.is_active = false :=
    fun t ht => h t (archGo_rem_mem l t ht)
  split
  · refine forall_selFirst _ ?_ _ hbase
    intro t hD
    simpa [Task.setSel] using hD
  · exact hbase

theorem inv_archive_done_tasks (a : App) (now : Nat) (h : AppInv a) :
    AppInv (a.archive_done_tasks now) := by
  obtain ⟨h1, h2, h3, h4, h5, h6⟩ := h
  unfold App.archive_done_tasks
  split
  · rename_i hne
    refine ⟨countSel_archRem a.tasks h1, ?_, le_trans (countActive_archRem a.tasks) h3,
      forall_D_archRem a.tasks h4, ?_, ?_⟩
    · intro b hb
      rcases List.mem_append.mp hb with h0 | h0
      · exact h2 b h0
      · simp only [List.mem_singleton] at h0
        intro _
        rw [h0]
        show countSel (selFirst (archGo a.tasks).2.1) = 1
        refine countSel_selFirst_of_zero _ ?_ ?_
        · exact List.countP_eq_zero.mpr
            (fun x hx => by simp [archGo_arch_unsel a.tasks x hx])
        · intro h00
          rw [h00] at hne
          simp at hne
    · intro b hb
      rcases List.mem_append.mp hb with h0 | h0
      · exact h5 b h0
      · simp only [List.mem_singleton] at h0
        rw [h0]
        show ∀ t ∈ selFirst (archGo a.tasks).2.1, t.is_active = false
        refine forall_selFirst _ ?_ _ (archGo_arch_inactive a.tasks h4)
        intro t hP
        simpa [Task.setSel] using hP
    · right
      rw [List.length_append]
      simp
  · exact ⟨countSel_archRem a.tasks h1, h2, le_trans (countActive_archRem a.tasks) h3,
      forall_D_archRem a.tasks h4, h5, h6⟩

/-! ### The dearchive scan -/

theorem getD_reselectAt_of_gt (l : List Task) (k j : Nat) (h : k < j) :
    (reselectAt l k).getD j defTask = l.getD j defTask := by
  unfold reselectAt
  split_ifs with h0 h1
  · exact getD_set_ne defTask l k j _ (by omega)
  · exact getD_set_ne defTask l (k - 1) j _ (by omega)
  · rfl

theorem deGo_base (batch pushed : List Task) (i : Nat) (h : ¬i < batch.length) :
    deGo batch pushed i = (batch, pushed) := by
  unfold deGo
  rw [dif_neg h]

theorem deGo_unsel_from : ∀ (n : Nat) (batch pushed : List Task) (i : Nat),
    batch.length - i = n →
    (∀ j, i ≤ j → j < batch.length → (batch.getD j defTask).is_selected = false) →
    deGo batch pushed i = (batch, pushed) := by
  intro n
  induction n with
  | zero =>
    intro batch pushed i hn hun
    exact deGo_base batch pushed i (by omega)
  | succ m ih =>
    intro batch pushed i hn hun
    have hi : i < batch.length := by omega
    have hti := hun i (Nat.le_refl i) hi
    unfold deGo
    rw [dif_pos hi]
    simp only [hti, Bool.false_eq_true, if_false]
    exact ih batch pushed (i + 1) (by omega) (fun j hj hjl => hun j (by omega) hjl)

theorem deGo_found : ∀ (n : Nat) (batch pushed : List Task) (i p : Nat),
    batch.length - i = n → i ≤ p → p < batch.length →
    (batch.getD p defTask).is_selected = true →
    (∀ j, j < batch.length → j ≠ p → (batch.getD j defTask).is_selected = false) →
    deGo batch pushed i =
      (reselectAt (batch.eraseIdx p) p,
       pushed ++ [{ batch.getD p defTask with is_done := false, is_selected := false }]) := by
  intro n
  induction n with
  | zero =>
    intro batch pushed i p hn hip hp hsel hothers
    omega
  | succ m ih =>
    intro batch pushed i p hn hip hp hsel hothers
    have hi : i < batch.length := by omega
    by_cases heq : i = p
    · subst heq
      unfold deGo
      rw [dif_pos hi]
      simp only [hsel, if_true]
      have hlen2 : (batch.eraseIdx i).length = batch.length - 1 :=
        List.length_eraseIdx_of_lt hi
      have hresel_len : (reselectAt (batch.eraseIdx i) i).length = batch.length - 1 := by
        rw [length_reselectAt, hlen2]
      refine deGo_unsel_from ((reselectAt (batch.eraseIdx i) i).length - (i + 1)) _ _ _
        rfl ?_
      intro j hj hjl
      rw [hresel_len] at hjl
      rw [getD_reselectAt_of_gt _ i j (by omega), getD_eraseIdx_ge defTask batch i j (by omega)]
      exact hothers (j + 1) (by omega) (by omega)
    · have hti := hothers i hi heq
      unfold deGo
      rw [dif_pos hi]
      simp only [hti, Bool.false_eq_true, if_false]
      exact ih batch pushed (i + 1) p (by omega) (by omega) hp hsel hothers

/-- The facts `dearchive_task` needs about the scan over the current batch,
for a batch that is empty or has exactly one selected task, all of whose
tasks are inactive. -/
theorem deGo_facts (batch : List Task)
    (hsel : batch ≠ [] → countSel batch = 1)
    (hact : ∀ t ∈ batch, t.is_active = false) :
    (∀ t ∈ (deGo batch [] 0).2, t.is_selected = false ∧ t.is_active = false) ∧
    ((deGo batch [] 0).1 ≠ [] → countSel (deGo batch [] 0).1 = 1) ∧
    (∀ t ∈ (deGo batch [] 0).1, t.is_active = false) := by
  by_cases hb : batch = []
  · subst hb
    rw [deGo_base [] [] 0 (by simp)]
    simp
  · have hone := hsel hb
    rcases countSel_one_idx batch hone with ⟨p, hp, hpsel, hothers⟩
    have hrun := deGo_found (batch.length - 0) batch [] 0 p rfl (Nat.zero_le p) hp
      hpsel hothers
    rw [hrun]
    have hmem_p : batch.getD p defTask ∈ batch := by
      rw [List.getD_eq_getElem batch defTask hp]
      exact List.getElem_mem hp
    have herase0 : countSel (batch.eraseIdx p) = 0 := by
      have := countSel_eraseIdx_balance batch p hp
      rw [hpsel] at this
      simp only [if_true] at this
      omega
    have hlen2 : (batch.eraseIdx p).length = batch.length - 1 :=
      List.length_eraseIdx_of_lt hp
    refine ⟨?_, ?_, ?_⟩
    · intro t ht
      simp only [List.nil_append, List.mem_singleton] at ht
      rw [ht]
      exact ⟨rfl, hact (batch.getD p defTask) hmem_p⟩
    · intro hne
      have hne2 : 0 < (batch.eraseIdx p).length := by
        by_contra h0
        apply hne
        show reselectAt (batch.eraseIdx p) p = []
        have : batch.eraseIdx p = [] := by
          cases hx : batch.eraseIdx p with
          | nil => rfl
          | cons y ys => rw [hx] at h0; simp at h0
        rw [this]
        rfl
      exact countSel_reselectAt_zero _ p herase0 hne2 (by omega)
    · refine forall_reselectAt _ (fun t hP => hP) _ p (by omega) ?_
      intro t ht
      exact hact t (List.mem_of_mem_eraseIdx ht)

theorem inv_dearchive_task (a : App) (h : AppInv a) : AppInv a.dearchive_task := by
  obtain ⟨h1, h2, h3, h4, h5, h6⟩ := h
  unfold App.dearchive_task
  split
  · rename_i hlen
    obtain ⟨hbmem, hcur⟩ := currBatch_mem a hlen h6
    obtain ⟨hpush, hb1, hb2⟩ := deGo_facts a.currBatch.tasks
      (fun hne => h2 _ hbmem hne) (h5 _ hbmem)
    have hA : countSel (a.tasks ++ (deGo a.currBatch.tasks [] 0).2) ≤ 1 := by
      rw [countSel, List.countP_append]
      have hz : (deGo a.currBatch.tasks [] 0).2.countP (fun t => t.is_selected) = 0 :=
        List.countP_eq_zero.mpr (fun x hx => by simp [(hpush x hx).1])
      rw [hz]
      rw [countSel] at h1
      omega
    have hC : countActive (a.tasks ++ (deGo a.currBatch.tasks [] 0).2) ≤ 1 := by
      rw [countActive, List.countP_append]
      have hz : (deGo a.currBatch.tasks [] 0).2.countP (fun t => t.is_active) = 0 :=
        List.countP_eq_zero.mpr (fun x hx => by simp [(hpush x hx).2])
      rw [hz]
      rw [countActive] at h3
      omega
    have hD : ∀ t ∈ a.tasks ++ (deGo a.currBatch.tasks [] 0).2,
        t.is_done = true → t.is_active = false := by
      intro t ht
      rcases List.mem_append.mp ht with h0 | h0
      · exact h4 t h0
      · intro _
        exact (hpush t h0).2
    split
    · -- the batch became empty and is removed
      refine ⟨hA, ?_, hC, hD, ?_, ?_⟩
      · intro b hb
        exact h2 b (List.mem_of_mem_eraseIdx hb)
      · intro b hb
        exact h5 b (List.mem_of_mem_eraseIdx hb)
      · by_cases hz : (a.archive.eraseIdx a.curr_archive).length = 0
        · rw [if_pos hz]
          left
          cases hx : a.archive.eraseIdx a.curr_archive with
          | nil => rfl
          | cons y ys => rw [hx] at hz; simp at hz
        · rw [if_neg hz]
          right
          dsimp only
          split <;> omega
    · -- the batch stays, updated in place
      rename_i hne0
      refine ⟨hA, ?_, hC, hD, ?_, ?_⟩
      · intro b hb
        rcases List.mem_or_eq_of_mem_set hb with h0 | h0
        · exact h2 b h0
        · intro hbne
          rw [h0] at hbne ⊢
          show countSel (deGo a.currBatch.tasks [] 0).1 = 1
          exact hb1 (by simpa using hbne)
      · intro b hb
        rcases List.mem_or_eq_of_mem_set hb with h0 | h0
        · exact h5 b h0
        · rw [h0]
          exact hb2
      · right
        rw [List.length_set]
        exact hcur
  · exact ⟨h1, h2, h3, h4, h5, h6⟩

theorem inv_update_times (a : App) (dt : Nat) (h : AppInv a) :
    AppInv (a.update_times dt) := by
  unfold App.update_times
  unfold AppInv at h ⊢
  have hc := inv_components_map
    (fun t => if t.is_active then { t with elapsed_time := t.elapsed_time + dt } else t)
    (fun t => by by_cases hx : t.is_active <;> simp [hx])
    (fun t => by by_cases hx : t.is_active <;> simp [hx])
    (fun t => by by_cases hx : t.is_active <;> simp [hx]) a.tasks
  exact ⟨by rw [hc.1]; exact h.1, h.2.1, by rw [hc.2.1]; exact h.2.2.1,
    hc.2.2 h.2.2.2.1, h.2.2.2.2.1, h.2.2.2.2.2⟩

/-! ## Reachability and the global invariant (C1, C7) -/

theorem app_new_fields (fs : FileSys) :
    (app_new fs).2.tasks = selFirst ((fs.tasks_file.getD []).map (fun t => t.setSel false)) ∧
    (app_new fs).2.archive = fs.archive_file.getD [] ∧
    (app_new fs).2.curr_archive
      = (if 0 < (fs.archive_file.getD []).length then (fs.archive_file.getD []).length - 1
         else 0) := by
  rcases fs with ⟨tf, af, sf⟩
  cases tf <;> cases af <;> cases sf <;> simp [app_new]

theorem startup_inv (fs : FileSys) (hfs : GoodFS fs) : AppInv (app_new fs).2 := by
  obtain ⟨g1, g2, g3⟩ := hfs
  obtain ⟨ht, ha, hc⟩ := app_new_fields fs
  refine ⟨?_, ?_, ?_, ?_, ?_, ?_⟩
  · rw [ht]
    have hz := countSel_clear (fs.tasks_file.getD [])
    cases hx : (fs.tasks_file.getD []).map (fun t => t.setSel false) with
    | nil => simp [countSel, selFirst]
    | cons y ys =>
      rw [← hx, countSel_selFirst_of_zero _ hz (by rw [hx]; simp)]
  · rw [ha]
    intro b hb
    exact (g3 b hb).1
  · rw [ht, countActive_selFirst,
      countActive_map (fun t => t.setSel false) (fun t => rfl)]
    exact g2
  · rw [ht]
    refine forall_selFirst _ (fun t hD => hD) _ ?_
    exact forall_D_map (fun t => t.setSel false) (fun t hD => hD) _ g1
  · rw [ha]
    intro b hb
    exact (g3 b hb).2
  · rw [ha, hc]
    by_cases hx : 0 < (fs.archive_file.getD []).length
    · rw [if_pos hx]
      right
      omega
    · rw [if_neg hx]
      left
      cases hy : fs.archive_file.getD [] with
      | nil => rfl
      | cons z zs => rw [hy] at hx; simp at hx

theorem step_inv {a b : App} (hs : Step a b) (h : AppInv a) : AppInv b := by
  cases hs with
  | add_task now => exact inv_add_task a now h
  | del_task => exact inv_del_task a h
  | inc_sel_task => exact inv_inc_sel_task a h
  | dec_sel_task => exact inv_dec_sel_task a h
  | move_task_up => exact inv_move_task_up a h
  | move_task_down => exact inv_move_task_down a h
  | do_undo_task => exact inv_do_undo_task a h
  | activate_task => exact inv_activate_task a h
  | archive_done_tasks now => exact inv_archive_done_tasks a now h
  | dearchive_task => exact inv_dearchive_task a h
  | enter_edit f => exact inv_enter_edit a f h
  | enter_display => exact inv_enter_display a h
  | change_field => exact inv_change_field a h
  | type_in_field c => exact inv_type_in_field a c h
  | delete_in_field => exact inv_delete_in_field a h
  | dec_cursor => exact inv_dec_cursor a h
  | inc_cursor => exact inv_inc_cursor a h
  | dec_line => exact inv_dec_line a h
  | inc_line => exact inv_inc_line a h
  | inc_arch_item => exact inv_inc_arch_item a h
  | dec_arch_item => exact inv_dec_arch_item a h
  | update_times dt => exact inv_update_times a dt h
  | goto s => exact inv_goto a s h

theorem reach_inv (fs : FileSys) (st : App) (hfs : GoodFS fs) (h : Reachable fs st) :
    AppInv st := by
  unfold Reachable at h
  induction h with
  | refl => exact startup_inv fs hfs
  | tail hsteps hstep ih => exact step_inv hstep ih

/-- One unfolding of the `dearchive_task` scan at a selected index. -/
theorem deGo_step_sel (batch pushed : List Task) (i : Nat) (hi : i < batch.length)
    (hs : (batch.getD i defTask).is_selected = true) :
    deGo batch pushed i = deGo (reselectAt (batch.eraseIdx i) i)
      (pushed ++ [{ batch.getD i defTask with is_done := false, is_selected := false }])
      (i + 1) := by
  conv_lhs => unfold deGo
  rw [dif_pos hi]
  simp only [hs, if_true]

/-- C1 (counterexample): a genuine interactive run — add a task, leave the
editor, mark it done, archive it, switch to the archive view, dearchive
it — reaches a state whose active task list is non-empty (one task) with NO
selected task: the claimed exactly-one-selected invariant fails exactly in
the highlighted case (dearchive_task appending the batch's last selected
task, unselected, to a previously empty active list). -/
theorem dearchive_breaks_selection_invariant :
    Reachable fsEmpty c1s6 ∧ c1s6.tasks.length = 1 ∧ countSel c1s6.tasks = 0 := by
  have hde : deGo (App.currBatch c1s5).tasks [] 0
      = ([], [{ (App.currBatch c1s5).tasks.getD 0 defTask with
                is_done := false, is_selected := false }]) := by
    rw [deGo_step_sel (App.currBatch c1s5).tasks [] 0 (by decide) (by decide)]
    rw [deGo_base _ _ 1 (by decide)]
    decide
  refine ⟨?_, ?_, ?_⟩
  · have s1 : Step app0 c1s1 := Step.add_task app0 0
    have s2 : Step c1s1 c1s2 := Step.enter_display c1s1
    have s3 : Step c1s2 c1s3 := Step.do_undo_task c1s2
    have s4 : Step c1s3 c1s4 := Step.archive_done_tasks c1s3 0
    have s5 : Step c1s4 c1s5 := Step.goto c1s4 AppState.Archived
    have s6 : Step c1s5 c1s6 := Step.dearchive_task c1s5
    exact ((((((Relation.ReflTransGen.refl).tail s1).tail s2).tail s3).tail
      s4).tail s5).tail s6
  · show (App.dearchive_task c1s5).tasks.length = 1
    unfold App.dearchive_task
    rw [hde]
    decide
  · show countSel (App.dearchive_task c1s5).tasks = 0
    unfold App.dearchive_task
    rw [hde]
    decide

/-- C1 (amended): from a startup state over well-formed files (as the
program itself writes them), every reachable state has exactly one selected
task in every non-empty archive batch, and AT MOST one — not always exactly
one — selected task in the active list: `dearchive_task` appends the
dearchived task unselected, so a previously empty active list is left
non-empty with zero selected tasks until a later `add_task`/`enter_display`
restores a selection. -/
theorem selection_invariant_amended (fs : FileSys) (st : App) (hfs : GoodFS fs)
    (h : Reachable fs st) :
    (∀ b ∈ st.archive, b.tasks ≠ [] → countSel b.tasks = 1) ∧
    countSel st.tasks ≤ 1 :=
  ⟨(reach_inv fs st hfs h).2.1, (reach_inv fs st hfs h).1⟩

/-- Witness for C1's amended invariant at the concrete first-run startup
state. -/
theorem selection_invariant_amended_witness :
    (∀ b ∈ app0.archive, b.tasks ≠ [] → countSel b.tasks = 1) ∧
    countSel app0.tasks ≤ 1 :=
  selection_invariant_amended fsEmpty app0 (by simp [GoodFS, fsEmpty, countActive]) Relation.ReflTransGen.refl

/-- C7 (confirmed): from a startup state over well-formed files, every state
reachable by the public operations has at most one active task in the whole
active list; in particular `activate_task` (which deactivates the running
task and activates the selected, not-done task) and `do_undo_task` (which
deactivates a task that becomes done) preserve the bound. -/
theorem active_invariant (fs : FileSys) (st : App) (hfs : GoodFS fs)
    (h : Reachable fs st) : countActive st.tasks ≤ 1 :=
  (reach_inv fs st hfs h).2.2.1

/-- Witness for C7 at the concrete first-run startup state. -/
theorem active_invariant_witness : countActive app0.tasks ≤ 1 :=
  active_invariant fsEmpty app0 (by simp [GoodFS, fsEmpty, countActive]) Relation.ReflTransGen.refl

end Todo
